import Mathlib

/-!
# go_bitmap: a fixed-capacity bitmap over a packed byte slice

Shallow embedding of `bitmap.go` (package `bitmap`) and the properties of its
operations.  The embedding is sequential: every operation is one atomic step.
Of the `sync.RWMutex` only the requests that one call makes to it are
modelled (`HasLocks`, ..., `StringLocks`).

Machine integers are natural numbers / integers with explicit wrap-around:
* `uint64` values are `Nat`s below `2 ^ 64`, `i--` and `i++` wrap modulo `2 ^ 64`;
* `int` is the 64-bit signed integer, `+` and `-` wrap into `[-2 ^ 63, 2 ^ 63)`;
* a `byte` is a `Nat` reduced modulo `256`.

A Go call can end in three ways, recorded by `Outcome`: it returns, it panics
(index out of range, `makeslice: len out of range`), or it is still running
when the step budget (fuel) of the model is used up.
-/

namespace GoBitmap

/-! ## Definitions -/

/-- Result of running a Go call in the model. -/
inductive Outcome (α : Type) where
  /-- the call returned `a` -/
  | ret (a : α) : Outcome α
  /-- the call ended in a run-time panic -/
  | panic : Outcome α
  /-- the step budget ran out while the call was still looping -/
  | timeout : Outcome α
  deriving DecidableEq, Repr

/-- The constant `bitmapSize = 0x01 << 32`. -/
def bitmapSize : Int := 2 ^ 32

/-- Wrap-around of 64-bit signed (`int`) arithmetic. -/
def wrapInt (x : Int) : Int := (x + 2 ^ 63) % 2 ^ 64 - 2 ^ 63

/-- The conversion `uint64(x)` of an `int`. -/
def toUint64 (x : Int) : Nat := (x % 2 ^ 64).toNat

/-- The struct `Bitmap` (without its mutex): `data []byte`, `bitsize uint64`,
`maxpos uint64`. -/
structure Bitmap where
  data : List Nat
  bitsize : Nat
  maxpos : Nat
  deriving DecidableEq, Repr

/-- The two ways `NewBitmap` can return: `(&Bitmap{...}, nil)` or
`(nil, errors.New("size overflows"))`. -/
inductive NewResult where
  | bitmap (bm : Bitmap) : NewResult
  | sizeOverflows : NewResult
  deriving DecidableEq, Repr

/-- The value of the local `size` of `NewBitmap` after the `if / else if`
that substitutes the maximum for `0` and rounds up to a multiple of 8.
Go's `%` on `int` truncates towards zero (`Int.tmod`), `+=` wraps. -/
def roundedSize (size : Int) : Int :=
  if size = 0 then bitmapSize
  else
    let remainder := Int.tmod size 8
    if remainder ≠ 0 then wrapInt (size + (8 - remainder)) else size

/-- Function `NewBitmap(size int) (*Bitmap, error)`.  `make([]byte, n)` panics for a
negative `n`; `size >> 3` is the arithmetic shift. -/
def NewBitmap (size : Int) : Outcome NewResult :=
  let size1 := roundedSize size
  if size1 > bitmapSize then .ret .sizeOverflows
  else if size1 >>> (3 : Nat) < 0 then .panic
  else .ret (.bitmap
    { data := List.replicate (size1 >>> (3 : Nat)).toNat 0
      bitsize := toUint64 (wrapInt (size1 - 1))
      maxpos := 0 })

/-- Function `NewBitmapMax()`: the bitmap of `NewBitmap(bitmapSize)`, the error dropped
(`nil` is `none`). -/
def NewBitmapMax : Outcome (Option Bitmap) :=
  match NewBitmap bitmapSize with
  | .ret (.bitmap bm) => .ret (some bm)
  | .ret .sizeOverflows => .ret none
  | .panic => .panic
  | .timeout => .timeout

/-- Method `(bm *Bitmap) Has(offset uint64) bool`.  Indexing `bm.data[index]` outside
the slice panics. -/
def Has (bm : Bitmap) (offset : Nat) : Outcome Bool :=
  if bm.bitsize < offset then .ret false
  else
    let index := offset / 8
    let pos := offset % 8
    match bm.data[index]? with
    | none => .panic
    | some b => .ret (((b >>> pos) &&& 1) == 1)

/-- Method `(bm *Bitmap) Add(offset uint64) bool`, returning the new state and the
result.  `bm.data[index] |= 0x01 << pos` on bytes. -/
def Add (bm : Bitmap) (offset : Nat) : Outcome (Bitmap × Bool) :=
  let index := offset / 8
  let pos := offset % 8
  if bm.bitsize < offset then .ret (bm, false)
  else
    match bm.data[index]? with
    | none => .panic
    | some b =>
      let bm1 : Bitmap := { bm with data := bm.data.set index ((b ||| ((1 <<< pos) % 256)) % 256) }
      if bm1.maxpos < offset then .ret ({ bm1 with maxpos := offset }, true)
      else .ret (bm1, true)

/-- Method `(bm *Bitmap) Prev(offset uint64) (uint64, bool)`, with a step budget:
`for i = offset; i >= 0; i-- { if bm.Has(i) { return i, true } }; return 0, false`.
The counter is a `uint64`: the loop condition `i >= 0` is kept as written and
`i--` wraps modulo `2 ^ 64`. -/
def Prev : Nat → Bitmap → Nat → Outcome (Nat × Bool)
  | 0, _, _ => .timeout
  | fuel + 1, bm, i =>
    if i ≥ 0 then
      match Has bm i with
      | .ret true => .ret (i, true)
      | .ret false => Prev fuel bm ((i + (2 ^ 64 - 1)) % 2 ^ 64)
      | .panic => .panic
      | .timeout => .timeout
    else .ret (0, false)

/-- Method `(bm *Bitmap) Next(offset uint64) (uint64, bool)`, with a step budget:
`for i = offset; i <= bm.bitsize; i++ { if bm.Has(i) { return i, true } }; return 0, false`. -/
def Next : Nat → Bitmap → Nat → Outcome (Nat × Bool)
  | 0, _, _ => .timeout
  | fuel + 1, bm, i =>
    if i ≤ bm.bitsize then
      match Has bm i with
      | .ret true => .ret (i, true)
      | .ret false => Next fuel bm ((i + 1) % 2 ^ 64)
      | .panic => .panic
      | .timeout => .timeout
    else .ret (0, false)

/-- Method `(bm *Bitmap) Del(offset uint64) bool`, returning the new state and the
result; the step budget is the one of its call of `Prev`.
`bm.data[index] &^= 0x01 << pos` on bytes (`&^` is and-not). -/
def Del (fuel : Nat) (bm : Bitmap) (offset : Nat) : Outcome (Bitmap × Bool) :=
  let index := offset / 8
  let pos := offset % 8
  if bm.bitsize < offset then .ret (bm, false)
  else
    match bm.data[index]? with
    | none => .panic
    | some b =>
      let bm1 : Bitmap :=
        { bm with data := bm.data.set index ((b &&& (255 ^^^ ((1 <<< pos) % 256))) % 256) }
      if bm1.maxpos ≤ offset then
        match Prev fuel bm1 offset with
        | .ret (p, _) => .ret ({ bm1 with maxpos := p }, true)
        | .panic => .panic
        | .timeout => .timeout
      else .ret (bm1, true)

/-- The state of `Del` after the byte is written and before `maxpos` is
looked at. -/
def cleared (bm : Bitmap) (o b : Nat) : Bitmap :=
  { data := bm.data.set (o / 8) ((b &&& (255 ^^^ ((1 <<< (o % 8)) % 256))) % 256)
    bitsize := bm.bitsize
    maxpos := bm.maxpos }

/-- Method `(bm *Bitmap) Maxpos() uint64`. -/
def Maxpos (bm : Bitmap) : Nat := bm.maxpos

/-- Method `(bm *Bitmap) BitSize() uint64`. -/
def BitSize (bm : Bitmap) : Nat := bm.bitsize

/-- The bitmaps a caller can hold: returned by `NewBitmap` for some `int`
argument, then changed by calls of `Add` and `Del` that returned. -/
inductive Built : Bitmap → Prop where
  | fresh (size : Int) (bm : Bitmap) (hlo : -2 ^ 63 ≤ size) (hhi : size < 2 ^ 63)
      (h : NewBitmap size = .ret (.bitmap bm)) : Built bm
  | add (bm : Bitmap) (o : Nat) (bm1 : Bitmap) (r : Bool) (hb : Built bm) (ho : o < 2 ^ 64)
      (h : Add bm o = .ret (bm1, r)) : Built bm1
  | del (fuel : Nat) (bm : Bitmap) (o : Nat) (bm1 : Bitmap) (r : Bool) (hb : Built bm)
      (ho : o < 2 ^ 64) (h : Del fuel bm o = .ret (bm1, r)) : Built bm1

/-- Representation invariant of the data model: the storage has one byte per
8 offsets of `[0, bitsize]`. -/
def WF (bm : Bitmap) : Prop := 8 * bm.data.length = bm.bitsize + 1

instance (bm : Bitmap) : Decidable (WF bm) := by
  unfold WF
  infer_instance

/-- What `NewBitmap` establishes and `Add` and `Del` keep, in `uint64`
arithmetic: `bitsize + 1` (wrapped) is 8 times the storage length. -/
def Inv (bm : Bitmap) : Prop :=
  bm.bitsize < 2 ^ 64 ∧ (bm.bitsize + 1) % 2 ^ 64 = 8 * bm.data.length

instance (bm : Bitmap) : Decidable (Inv bm) := by
  unfold Inv
  infer_instance

/-- The brute-force downward scan of `Has` over `[0, o]`: the largest offset
`p ≤ o` at which `Has` returns true, if any. -/
def bruteForceDown (bm : Bitmap) : Nat → Option Nat
  | 0 => if Has bm 0 = .ret true then some 0 else none
  | o + 1 => if Has bm (o + 1) = .ret true then some (o + 1) else bruteForceDown bm o

/-- The brute-force upward scan of `Has` over `[o, o + n)`: the smallest offset
at which `Has` returns true, if any. -/
def bruteForceUp (bm : Bitmap) (o : Nat) : Nat → Option Nat
  | 0 => none
  | n + 1 => if Has bm o = .ret true then some o else bruteForceUp bm (o + 1) n

/-- A run of `Add` calls, one per offset of the list, in order; the run stops
at the first call that does not return. -/
def AddAll (bm : Bitmap) : List Nat → Outcome Bitmap
  | [] => .ret bm
  | o :: os =>
    match Add bm o with
    | .ret (bm1, _) => AddAll bm1 os
    | .panic => .panic
    | .timeout => .timeout

/-- The states reached from `bm0` by calls of `Add` and `Del` that returned
(`Has`, `Prev` and `Next` do not change the state). -/
inductive Reach (bm0 : Bitmap) : Bitmap → Prop where
  | start : Reach bm0 bm0
  | add (bm : Bitmap) (o : Nat) (bm1 : Bitmap) (r : Bool) (hb : Reach bm0 bm)
      (h : Add bm o = .ret (bm1, r)) : Reach bm0 bm1
  | del (fuel : Nat) (bm : Bitmap) (o : Nat) (bm1 : Bitmap) (r : Bool) (hb : Reach bm0 bm)
      (h : Del fuel bm o = .ret (bm1, r)) : Reach bm0 bm1

/-- The value of `bitTotal` in `String` when the loop starts:
`bitTotal = bm.maxpos + 1`, then `if bm.maxpos > maxTotal { bitTotal = maxTotal }`
with `maxTotal = 100`. -/
def bitTotal (bm : Bitmap) : Nat :=
  if bm.maxpos > 100 then 100 else (bm.maxpos + 1) % 2 ^ 64

/-- The loop of `String`, with a step budget:
`for offset = 0; offset < bitTotal; offset++ { if bm.Has(offset) { numSlice = append(numSlice, offset) } }`,
returning `numSlice`. -/
def StringLoop (bm : Bitmap) (total : Nat) : Nat → Nat → List Nat → Outcome (List Nat)
  | 0, _, _ => .timeout
  | fuel + 1, offset, numSlice =>
    if offset < total then
      match Has bm offset with
      | .ret true => StringLoop bm total fuel ((offset + 1) % 2 ^ 64) (numSlice ++ [offset])
      | .ret false => StringLoop bm total fuel ((offset + 1) % 2 ^ 64) numSlice
      | .panic => .panic
      | .timeout => .timeout
    else .ret numSlice

/-- The slice `numSlice` that `String` formats.  The loop makes at most
`bitTotal` rounds, so a budget of `bitTotal + 1` steps is never used up. -/
def numSlice (bm : Bitmap) : Outcome (List Nat) :=
  StringLoop bm (bitTotal bm) (bitTotal bm + 1) 0 []

/-- The text of `fmt.Sprintf("%v", numSlice)` for a `[]uint64`: the elements in
order, separated by blanks, in square brackets. -/
def render (l : List Nat) : String :=
  "[" ++ " ".intercalate (l.map toString) ++ "]"

/-- Method `(bm *Bitmap) String() string`. -/
def Bitmap.String (bm : Bitmap) : Outcome String :=
  match numSlice bm with
  | .ret l => .ret (render l)
  | .panic => .panic
  | .timeout => .timeout

/-- The requests that a call makes to the mutex `bm.mu`, in order. -/
inductive LockEv where
  | RLock : LockEv
  | RUnlock : LockEv
  | Lock : LockEv
  | Unlock : LockEv
  deriving DecidableEq, Repr

/-- Mutex requests of `Has`: none on the out-of-range return; otherwise
`RLock`, the read of `bm.data[index]` (a panic there leaves the lock held), `RUnlock`. -/
def HasLocks (bm : Bitmap) (offset : Nat) : List LockEv :=
  if bm.bitsize < offset then []
  else
    match bm.data[offset / 8]? with
    | none => [.RLock]
    | some _ => [.RLock, .RUnlock]

/-- Mutex requests of `Add`. -/
def AddLocks (bm : Bitmap) (offset : Nat) : List LockEv :=
  if bm.bitsize < offset then []
  else
    match bm.data[offset / 8]? with
    | none => [.Lock]
    | some _ => [.Lock, .Unlock]

/-- Mutex requests of the first `fuel` rounds of `Prev`: those of its calls of `Has`. -/
def PrevLocks : Nat → Bitmap → Nat → List LockEv
  | 0, _, _ => []
  | fuel + 1, bm, i =>
    if i ≥ 0 then
      HasLocks bm i ++
        (match Has bm i with
         | .ret false => PrevLocks fuel bm ((i + (2 ^ 64 - 1)) % 2 ^ 64)
         | _ => [])
    else []

/-- Mutex requests of the first `fuel` rounds of `Next`: those of its calls of `Has`. -/
def NextLocks : Nat → Bitmap → Nat → List LockEv
  | 0, _, _ => []
  | fuel + 1, bm, i =>
    if i ≤ bm.bitsize then
      HasLocks bm i ++
        (match Has bm i with
         | .ret false => NextLocks fuel bm ((i + 1) % 2 ^ 64)
         | _ => [])
    else []

/-- Mutex requests of `Del`: `Lock` and `Unlock` around the byte write, then
those of `Prev` when it is called. -/
def DelLocks (fuel : Nat) (bm : Bitmap) (offset : Nat) : List LockEv :=
  if bm.bitsize < offset then []
  else
    match bm.data[offset / 8]? with
    | none => [.Lock]
    | some b =>
      [.Lock, .Unlock] ++
        (if bm.maxpos ≤ offset then PrevLocks fuel (cleared bm offset b) offset else [])

/-- Mutex requests of the loop of `String`: those of its calls of `Has`. -/
def StringLoopLocks (bm : Bitmap) (total : Nat) : Nat → Nat → List LockEv
  | 0, _ => []
  | fuel + 1, offset =>
    if offset < total then
      HasLocks bm offset ++
        (match Has bm offset with
         | .ret _ => StringLoopLocks bm total fuel ((offset + 1) % 2 ^ 64)
         | _ => [])
    else []

/-- Mutex requests of `String`: `bm.mu.RLock()`, `defer bm.mu.RUnlock()`, and
in between the loop with its calls of `Has`. -/
def StringLocks (bm : Bitmap) : List LockEv :=
  [.RLock] ++ StringLoopLocks bm (bitTotal bm) (bitTotal bm + 1) 0 ++ [.RUnlock]

/-- Mutex requests of `Maxpos`: none. -/
def MaxposLocks (_bm : Bitmap) : List LockEv := []

/-- Mutex requests of `BitSize`: none. -/
def BitSizeLocks (_bm : Bitmap) : List LockEv := []

/-- Running a list of mutex requests of one call with `held` acquisitions
outstanding: true when no `RLock` or `Lock` is requested while the call still
holds the mutex. -/
def neverLocksWhileHeld : Nat → List LockEv → Bool
  | _, [] => true
  | held, .RLock :: evs => held == 0 && neverLocksWhileHeld (held + 1) evs
  | held, .Lock :: evs => held == 0 && neverLocksWhileHeld (held + 1) evs
  | held, .RUnlock :: evs => neverLocksWhileHeld (held - 1) evs
  | held, .Unlock :: evs => neverLocksWhileHeld (held - 1) evs

/-- The relation between `maxpos` and the set bits that `NewBitmap`
establishes and every returning `Add` and `Del` keeps: `maxpos` is in range and
bounds every set offset; it is itself set as soon as some offset is; it is 0
when none is. -/
def MaxInv (bm : Bitmap) : Prop :=
  bm.maxpos ≤ bm.bitsize ∧
  (∀ o, Has bm o = .ret true → o ≤ bm.maxpos) ∧
  ((∃ o, Has bm o = .ret true) → Has bm bm.maxpos = .ret true) ∧
  ((∀ o, Has bm o ≠ .ret true) → bm.maxpos = 0)

/-! ## Theorems -/


/-! ### Bits of a byte -/

theorem bit_eq_testBit (b pos : Nat) : (((b >>> pos) &&& 1) == 1) = b.testBit pos := by
  unfold Nat.testBit
  rw [Nat.and_one_is_mod, Nat.one_and_eq_mod_two]
  rcases Nat.mod_two_eq_zero_or_one (b >>> pos) with h | h <;> simp [h]

theorem testBit_255 (q : Nat) : Nat.testBit 255 q = decide (q < 8) := by
  have : (255 : Nat) = 2 ^ 8 - 1 := by norm_num
  rw [this, Nat.testBit_two_pow_sub_one]

theorem testBit_one_shl (pos q : Nat) : Nat.testBit (1 <<< pos) q = decide (q = pos) := by
  rw [Nat.one_shiftLeft, Nat.testBit_two_pow]
  simp [eq_comm]

theorem testBit_setBit (b pos q : Nat) (hpos : pos < 8) :
    ((b ||| ((1 <<< pos) % 256)) % 256).testBit q
      = (decide (q < 8) && (b.testBit q || decide (q = pos))) := by
  have h256 : (256 : Nat) = 2 ^ 8 := by norm_num
  rw [h256, Nat.testBit_mod_two_pow, Nat.testBit_or, Nat.testBit_mod_two_pow, testBit_one_shl]
  by_cases h : q = pos
  · subst h; simp [hpos]
  · simp [h]

theorem testBit_clearBit (b pos q : Nat) (hpos : pos < 8) :
    ((b &&& (255 ^^^ ((1 <<< pos) % 256))) % 256).testBit q
      = (decide (q < 8) && (b.testBit q && !decide (q = pos))) := by
  have h256 : (256 : Nat) = 2 ^ 8 := by norm_num
  rw [h256, Nat.testBit_mod_two_pow, Nat.testBit_and, Nat.testBit_xor, testBit_255,
    Nat.testBit_mod_two_pow, testBit_one_shl]
  by_cases h : q = pos
  · subst h; simp [hpos]
  · by_cases h8 : q < 8 <;> simp [h, h8]

/-! ### `Has`, `Add`, `Del`: shape of the results -/

theorem Has_of_lt (bm : Bitmap) (o : Nat) (h : bm.bitsize < o) : Has bm o = .ret false := by
  simp [Has, h]

theorem Has_of_get (bm : Bitmap) (o b : Nat) (h : o ≤ bm.bitsize)
    (hb : bm.data[o / 8]? = some b) : Has bm o = .ret (b.testBit (o % 8)) := by
  have h1 : ¬ bm.bitsize < o := by omega
  simp only [Has, h1, if_false, hb, bit_eq_testBit]

theorem Has_of_none (bm : Bitmap) (o : Nat) (h : o ≤ bm.bitsize)
    (hb : bm.data[o / 8]? = none) : Has bm o = .panic := by
  have h1 : ¬ bm.bitsize < o := by omega
  simp only [Has, h1, if_false, hb]

theorem Has_ne_timeout (bm : Bitmap) (o : Nat) : Has bm o ≠ .timeout := by
  unfold Has
  split
  · simp
  · dsimp only
    split <;> simp

/-- What `Add` does on an in-range offset whose byte exists. -/
theorem Add_of_get (bm : Bitmap) (o b : Nat) (h : o ≤ bm.bitsize)
    (hb : bm.data[o / 8]? = some b) :
    Add bm o = .ret
      ({ data := bm.data.set (o / 8) ((b ||| ((1 <<< (o % 8)) % 256)) % 256)
         bitsize := bm.bitsize
         maxpos := if bm.maxpos < o then o else bm.maxpos }, true) := by
  have h1 : ¬ bm.bitsize < o := by omega
  simp only [Add, h1, if_false, hb]
  split <;> rfl

theorem Add_of_none (bm : Bitmap) (o : Nat) (h : o ≤ bm.bitsize)
    (hb : bm.data[o / 8]? = none) : Add bm o = .panic := by
  have h1 : ¬ bm.bitsize < o := by omega
  simp only [Add, h1, if_false, hb]

theorem Add_of_lt (bm : Bitmap) (o : Nat) (h : bm.bitsize < o) : Add bm o = .ret (bm, false) := by
  simp [Add, h]

theorem Del_of_get (fuel : Nat) (bm : Bitmap) (o b : Nat) (h : o ≤ bm.bitsize)
    (hb : bm.data[o / 8]? = some b) :
    Del fuel bm o =
      if bm.maxpos ≤ o then
        match Prev fuel (cleared bm o b) o with
        | .ret (p, _) => .ret ({ cleared bm o b with maxpos := p }, true)
        | .panic => .panic
        | .timeout => .timeout
      else .ret (cleared bm o b, true) := by
  have h1 : ¬ bm.bitsize < o := by omega
  simp only [Del, h1, if_false, hb, cleared]

theorem Del_of_none (fuel : Nat) (bm : Bitmap) (o : Nat) (h : o ≤ bm.bitsize)
    (hb : bm.data[o / 8]? = none) : Del fuel bm o = .panic := by
  have h1 : ¬ bm.bitsize < o := by omega
  simp only [Del, h1, if_false, hb]

theorem Del_of_lt (fuel : Nat) (bm : Bitmap) (o : Nat) (h : bm.bitsize < o) :
    Del fuel bm o = .ret (bm, false) := by
  simp [Del, h]


/-! ### `NewBitmap` -/

theorem tmod_eight_nonneg (size : Int) (h : 0 ≤ size) : Int.tmod size 8 = size % 8 := by
  rw [Int.tmod_eq_emod h (by norm_num)]

theorem tmod_eight_neg (size : Int) (h : size < 0) : Int.tmod size 8 = -((-size) % 8) := by
  match size, h with
  | .negSucc n, _ =>
    have h1 : Int.tmod (Int.negSucc n) 8 = -(((n + 1) % 8 : Nat) : Int) := rfl
    rw [h1, Int.neg_negSucc]
    norm_cast

theorem roundedSize_nonneg (size : Int) (h0 : 0 ≤ size) (h1 : size ≤ 2 ^ 63 - 8) :
    roundedSize size = if size = 0 then 2 ^ 32 else 8 * ((size + 7) / 8) := by
  unfold roundedSize bitmapSize
  split
  · rfl
  · simp only [tmod_eight_nonneg size h0, wrapInt]
    split <;> omega

/-- The rounded size is a multiple of 8 inside the `int` range. -/
theorem roundedSize_range (size : Int) (hlo : -2 ^ 63 ≤ size) (hhi : size < 2 ^ 63) :
    roundedSize size % 8 = 0 ∧ -2 ^ 63 ≤ roundedSize size ∧ roundedSize size < 2 ^ 63 := by
  unfold roundedSize bitmapSize
  split
  · norm_num
  · rcases lt_or_le size 0 with hneg | hpos
    · simp only [tmod_eight_neg size hneg, wrapInt]
      split <;> omega
    · simp only [tmod_eight_nonneg size hpos, wrapInt]
      split <;> omega

theorem shiftRight_three (x : Int) : x >>> (3 : Nat) = x / 8 := by
  have h := Int.shiftRight_eq_div_pow x 3
  norm_num at h
  exact h

/-- When `NewBitmap` returns a bitmap, and which one. -/
theorem NewBitmap_bitmap_iff (size : Int) (bm : Bitmap) :
    NewBitmap size = .ret (.bitmap bm) ↔
      roundedSize size ≤ 2 ^ 32 ∧ 0 ≤ roundedSize size ∧
      bm = ⟨List.replicate (roundedSize size / 8).toNat 0,
            toUint64 (wrapInt (roundedSize size - 1)), 0⟩ := by
  unfold NewBitmap bitmapSize
  simp only [shiftRight_three]
  constructor
  · intro h
    split at h
    · simp at h
    · split at h
      · simp at h
      · simp only [Outcome.ret.injEq, NewResult.bitmap.injEq] at h
        refine ⟨by omega, by omega, h.symm⟩
  · rintro ⟨h1, h2, h3⟩
    rw [if_neg (by omega), if_neg (by omega), h3]

theorem NewBitmap_Inv (size : Int) (bm : Bitmap) (hlo : -2 ^ 63 ≤ size) (hhi : size < 2 ^ 63)
    (h : NewBitmap size = .ret (.bitmap bm)) : Inv bm := by
  obtain ⟨h1, h2, h3⟩ := (NewBitmap_bitmap_iff size bm).1 h
  obtain ⟨h8, -, -⟩ := roundedSize_range size hlo hhi
  subst h3
  simp only [Inv, toUint64, wrapInt, List.length_replicate]
  constructor
  · omega
  · omega

theorem Add_keeps (bm bm1 : Bitmap) (o : Nat) (r : Bool) (h : Add bm o = .ret (bm1, r)) :
    bm1.bitsize = bm.bitsize ∧ bm1.data.length = bm.data.length := by
  rcases Nat.lt_or_ge bm.bitsize o with hlt | hle
  · rw [Add_of_lt bm o hlt] at h
    simp only [Outcome.ret.injEq, Prod.mk.injEq] at h
    rw [← h.1]; exact ⟨rfl, rfl⟩
  · cases hb : bm.data[o / 8]? with
    | none => rw [Add_of_none bm o hle hb] at h; simp at h
    | some b =>
      rw [Add_of_get bm o b hle hb] at h
      simp only [Outcome.ret.injEq, Prod.mk.injEq] at h
      rw [← h.1]; simp

theorem Del_keeps (fuel : Nat) (bm bm1 : Bitmap) (o : Nat) (r : Bool)
    (h : Del fuel bm o = .ret (bm1, r)) :
    bm1.bitsize = bm.bitsize ∧ bm1.data.length = bm.data.length := by
  rcases Nat.lt_or_ge bm.bitsize o with hlt | hle
  · rw [Del_of_lt fuel bm o hlt] at h
    simp only [Outcome.ret.injEq, Prod.mk.injEq] at h
    rw [← h.1]; exact ⟨rfl, rfl⟩
  · cases hb : bm.data[o / 8]? with
    | none => rw [Del_of_none fuel bm o hle hb] at h; simp at h
    | some b =>
      rw [Del_of_get fuel bm o b hle hb] at h
      split at h
      · split at h
        · simp only [Outcome.ret.injEq, Prod.mk.injEq] at h
          rw [← h.1]; simp [cleared]
        · simp at h
        · simp at h
      · simp only [Outcome.ret.injEq, Prod.mk.injEq] at h
        rw [← h.1]; simp [cleared]

/-- Every built bitmap satisfies the storage-length invariant. -/
theorem Built_Inv (bm : Bitmap) (h : Built bm) : Inv bm := by
  induction h with
  | fresh size bm hlo hhi h => exact NewBitmap_Inv size bm hlo hhi h
  | add bm o bm1 r _ _ h ih =>
    obtain ⟨h1, h2⟩ := Add_keeps bm bm1 o r h
    simpa [Inv, h1, h2] using ih
  | del fuel bm o bm1 r _ _ h ih =>
    obtain ⟨h1, h2⟩ := Del_keeps fuel bm bm1 o r h
    simpa [Inv, h1, h2] using ih

/-- A built bitmap is either well formed or the storage-less bitmap that
`NewBitmap` returns for the sizes `-15 .. -9`. -/
theorem Inv_cases (bm : Bitmap) (h : Inv bm) :
    WF bm ∨ (bm.data = [] ∧ bm.bitsize = 2 ^ 64 - 1) := by
  obtain ⟨h1, h2⟩ := h
  rcases Nat.lt_or_ge (bm.bitsize + 1) (2 ^ 64) with hlt | hge
  · left
    rw [Nat.mod_eq_of_lt hlt] at h2
    exact h2.symm
  · right
    have hb : bm.bitsize = 2 ^ 64 - 1 := by omega
    rw [hb] at h2
    have h0 : (2 ^ 64 - 1 + 1) % 2 ^ 64 = 0 := by norm_num
    have hl : bm.data.length = 0 := by
      rw [h0] at h2
      omega
    exact ⟨List.length_eq_zero.1 hl, hb⟩

/-! ### Reading a bit back after a byte write -/

theorem lt_length_of_get (l : List Nat) (i b : Nat) (h : l[i]? = some b) : i < l.length := by
  obtain ⟨hlt, -⟩ := List.getElem?_eq_some.1 h
  exact hlt

/-- The method `Has` does not read `maxpos`. -/
theorem Has_maxpos (d : List Nat) (s m m1 o : Nat) : Has ⟨d, s, m⟩ o = Has ⟨d, s, m1⟩ o := rfl

/-- After the byte of `o` is overwritten with `v`, `Has` at an offset `q` of
the same byte reads `v`. -/
theorem Has_write_same (bm : Bitmap) (o q b v m : Nat) (hq : q ≤ bm.bitsize) (hqo : q / 8 = o / 8)
    (hb : bm.data[o / 8]? = some b) :
    Has ⟨bm.data.set (o / 8) v, bm.bitsize, m⟩ q = .ret (v.testBit (q % 8)) := by
  refine Has_of_get ⟨bm.data.set (o / 8) v, bm.bitsize, m⟩ q v hq ?_
  show (bm.data.set (o / 8) v)[q / 8]? = some v
  rw [hqo]
  exact List.getElem?_set_self (lt_length_of_get _ _ _ hb)

/-- After the byte of `o` is overwritten, `Has` at an offset of another byte
is unchanged. -/
theorem Has_write_other (bm : Bitmap) (o q v m : Nat) (hqo : q / 8 ≠ o / 8) :
    Has ⟨bm.data.set (o / 8) v, bm.bitsize, m⟩ q = Has bm q := by
  unfold Has
  simp only
  rw [List.getElem?_set_ne (Ne.symm hqo)]

theorem Has_Add_self (bm bm1 : Bitmap) (o : Nat) (r : Bool) (ho : o ≤ bm.bitsize)
    (h : Add bm o = .ret (bm1, r)) : r = true ∧ Has bm1 o = .ret true := by
  cases hb : bm.data[o / 8]? with
  | none => rw [Add_of_none bm o ho hb] at h; simp at h
  | some b =>
    rw [Add_of_get bm o b ho hb] at h
    simp only [Outcome.ret.injEq, Prod.mk.injEq] at h
    refine ⟨h.2.symm, ?_⟩
    rw [← h.1, Has_write_same bm o o b _ _ ho rfl hb, testBit_setBit _ _ _ (Nat.mod_lt _ (by norm_num))]
    simp [Nat.mod_lt]

theorem Has_cleared_self (bm : Bitmap) (o b : Nat) (ho : o ≤ bm.bitsize)
    (hb : bm.data[o / 8]? = some b) : Has (cleared bm o b) o = .ret false := by
  unfold cleared
  rw [Has_write_same bm o o b _ _ ho rfl hb, testBit_clearBit _ _ _ (Nat.mod_lt _ (by norm_num))]
  simp

theorem Has_Del_self (fuel : Nat) (bm bm1 : Bitmap) (o : Nat) (r : Bool) (ho : o ≤ bm.bitsize)
    (h : Del fuel bm o = .ret (bm1, r)) : r = true ∧ Has bm1 o = .ret false := by
  cases hb : bm.data[o / 8]? with
  | none => rw [Del_of_none fuel bm o ho hb] at h; simp at h
  | some b =>
    rw [Del_of_get fuel bm o b ho hb] at h
    have hc := Has_cleared_self bm o b ho hb
    split at h
    · split at h
      · simp only [Outcome.ret.injEq, Prod.mk.injEq] at h
        refine ⟨h.2.symm, ?_⟩
        rw [← h.1]
        exact hc
      · simp at h
      · simp at h
    · simp only [Outcome.ret.injEq, Prod.mk.injEq] at h
      refine ⟨h.2.symm, ?_⟩
      rw [← h.1]
      exact hc

/-- On a well-formed bitmap no in-range byte index is outside the storage. -/
theorem WF_get (bm : Bitmap) (o : Nat) (hw : WF bm) (ho : o ≤ bm.bitsize) :
    ∃ b, bm.data[o / 8]? = some b := by
  have hlt : o / 8 < bm.data.length := by
    unfold WF at hw
    omega
  exact ⟨bm.data[o / 8], List.getElem?_eq_getElem hlt⟩

theorem WF_Has (bm : Bitmap) (o : Nat) (hw : WF bm) : ∃ v, Has bm o = .ret v := by
  rcases Nat.lt_or_ge bm.bitsize o with h | h
  · exact ⟨false, Has_of_lt bm o h⟩
  · obtain ⟨b, hb⟩ := WF_get bm o hw h
    exact ⟨_, Has_of_get bm o b h hb⟩

/-- On a well-formed bitmap, `Add` on an in-range offset returns true and the
bit reads back as set. -/
theorem WF_Add_Has (bm : Bitmap) (o : Nat) (hw : WF bm) (ho : o ≤ bm.bitsize) :
    ∃ bm1, Add bm o = .ret (bm1, true) ∧ Has bm1 o = .ret true := by
  obtain ⟨b, hb⟩ := WF_get bm o hw ho
  have h := Add_of_get bm o b ho hb
  exact ⟨_, h, (Has_Add_self bm _ o true ho h).2⟩

/-! ### The loop of `Prev` -/

theorem Prev_step_true (fuel : Nat) (bm : Bitmap) (i : Nat) (h : Has bm i = .ret true) :
    Prev (fuel + 1) bm i = .ret (i, true) := by
  simp [Prev, h]

theorem Prev_step_false (fuel : Nat) (bm : Bitmap) (i : Nat) (h : Has bm i = .ret false) :
    Prev (fuel + 1) bm i = Prev fuel bm ((i + (2 ^ 64 - 1)) % 2 ^ 64) := by
  simp [Prev, h]

theorem Prev_step_panic (fuel : Nat) (bm : Bitmap) (i : Nat) (h : Has bm i = .panic) :
    Prev (fuel + 1) bm i = .panic := by
  simp [Prev, h]

/-- When no offset reads as set, the loop of `Prev` is never left: whatever
the step budget, the call is still running when it is used up. -/
theorem Prev_all_false (bm : Bitmap) (h : ∀ i, Has bm i = .ret false) :
    ∀ fuel i, Prev fuel bm i = .timeout := by
  intro fuel
  induction fuel with
  | zero => intro i; rfl
  | succ n ih => intro i; rw [Prev_step_false n bm i (h i)]; exact ih _

/-- The final `return 0, false` of `Prev` is dead code: whenever `Prev`
returns, it returns an offset that reads as set, with `true`. -/
theorem Prev_ret_true (bm : Bitmap) :
    ∀ fuel i p f, Prev fuel bm i = .ret (p, f) → f = true ∧ Has bm p = .ret true := by
  intro fuel
  induction fuel with
  | zero => intro i p f h; simp [Prev] at h
  | succ n ih =>
    intro i p f h
    cases hh : Has bm i with
    | ret v =>
      cases v with
      | true =>
        rw [Prev_step_true n bm i hh] at h
        simp only [Outcome.ret.injEq, Prod.mk.injEq] at h
        rw [← h.1, ← h.2]
        exact ⟨rfl, hh⟩
      | false =>
        rw [Prev_step_false n bm i hh] at h
        exact ih _ p f h
    | panic => rw [Prev_step_panic n bm i hh] at h; simp at h
    | timeout => exact absurd hh (Has_ne_timeout bm i)

theorem dec_u64 (i : Nat) (h0 : 0 < i) (h : i < 2 ^ 64) : (i + (2 ^ 64 - 1)) % 2 ^ 64 = i - 1 := by
  omega

/-- The downward scan finds the first set offset at or below its start. -/
theorem Prev_found (bm : Bitmap) (p : Nat) (hp : Has bm p = .ret true) :
    ∀ fuel o, o < 2 ^ 64 → p ≤ o → (∀ i, p < i → i ≤ o → Has bm i = .ret false) →
      o - p < fuel → Prev fuel bm o = .ret (p, true) := by
  intro fuel
  induction fuel with
  | zero => intro o _ _ _ hf; omega
  | succ n ih =>
    intro o ho hpo hz hf
    rcases Nat.eq_or_lt_of_le hpo with heq | hlt
    · rw [← heq]; exact Prev_step_true n bm p hp
    · rw [Prev_step_false n bm o (hz o hlt le_rfl), dec_u64 o (by omega) ho]
      exact ih (o - 1) (by omega) (by omega) (fun i h1 h2 => hz i h1 (by omega)) (by omega)

/-- Phase one of a wrapping scan: when nothing reads as set in `[0, o]`, the
loop walks down to 0, decrements once more and continues at `2 ^ 64 - 1`. -/
theorem Prev_wraps (bm : Bitmap) :
    ∀ o fuel, o < 2 ^ 64 → (∀ i, i ≤ o → Has bm i = .ret false) →
      Prev (fuel + o + 1) bm o = Prev fuel bm (2 ^ 64 - 1) := by
  intro o
  induction o with
  | zero =>
    intro fuel _ hz
    rw [Prev_step_false _ bm 0 (hz 0 le_rfl)]
    norm_num
  | succ n ih =>
    intro fuel ho hz
    have h1 : fuel + (n + 1) + 1 = (fuel + n + 1) + 1 := by omega
    rw [h1, Prev_step_false _ bm (n + 1) (hz (n + 1) le_rfl), dec_u64 (n + 1) (by omega) ho]
    exact ih fuel (by omega) (fun i hi => hz i (by omega))

/-- A wrapping scan: nothing set in `[0, o]`, but `p > o` is the largest set
offset.  `Prev o` then returns `(p, true)` after `o + 1 + (2 ^ 64 - p)` probes. -/
theorem Prev_wrap_found (bm : Bitmap) (p o : Nat) (hp : Has bm p = .ret true) (hp64 : p < 2 ^ 64)
    (hop : o < p) (hlow : ∀ i, i ≤ o → Has bm i = .ret false)
    (hhigh : ∀ i, p < i → Has bm i = .ret false) (fuel : Nat) (hf : 2 ^ 64 - p + o + 1 ≤ fuel) :
    Prev fuel bm o = .ret (p, true) := by
  obtain ⟨k, rfl⟩ : ∃ k, fuel = k + o + 1 := ⟨fuel - o - 1, by omega⟩
  rw [Prev_wraps bm o k (by omega) hlow]
  exact Prev_found bm p hp k (2 ^ 64 - 1) (by norm_num) (by omega)
    (fun i h1 _ => hhigh i h1) (by omega)

/-! ### The brute-force scans -/

theorem bruteForceDown_some (bm : Bitmap) :
    ∀ o p, bruteForceDown bm o = some p →
      p ≤ o ∧ Has bm p = .ret true ∧ ∀ q, p < q → q ≤ o → Has bm q ≠ .ret true := by
  intro o
  induction o with
  | zero =>
    intro p h
    unfold bruteForceDown at h
    split at h
    · simp only [Option.some.injEq] at h
      subst h
      exact ⟨le_rfl, by assumption, fun q h1 h2 => by omega⟩
    · simp at h
  | succ n ih =>
    intro p h
    unfold bruteForceDown at h
    split at h
    · simp only [Option.some.injEq] at h
      subst h
      exact ⟨le_rfl, by assumption, fun q h1 h2 => by omega⟩
    · rename_i hn
      obtain ⟨h1, h2, h3⟩ := ih p h
      refine ⟨by omega, h2, fun q hq1 hq2 => ?_⟩
      rcases Nat.eq_or_lt_of_le hq2 with heq | hlt
      · rw [heq]; exact hn
      · exact h3 q hq1 (by omega)

theorem bruteForceDown_none (bm : Bitmap) :
    ∀ o, bruteForceDown bm o = none → ∀ q, q ≤ o → Has bm q ≠ .ret true := by
  intro o
  induction o with
  | zero =>
    intro h q hq
    unfold bruteForceDown at h
    split at h
    · simp at h
    · have : q = 0 := by omega
      rw [this]; assumption
  | succ n ih =>
    intro h q hq
    unfold bruteForceDown at h
    split at h
    · simp at h
    · rename_i hn
      rcases Nat.eq_or_lt_of_le hq with heq | hlt
      · rw [heq]; exact hn
      · exact ih h q (by omega)

/-! ### Claims C1 to C5 -/

/-- C1 (code defect).  The claim: on every bitmap built by `NewBitmap`, `Add o`
for `o ≤ BitSize()` returns true and `Has o` is true afterwards.  The code:
`NewBitmap(-9)` returns, without error, a bitmap with no storage and
`BitSize() = 2 ^ 64 - 1`; offset 0 is in range there and `Add 0` panics on
`bm.data[0]`. -/
theorem C1_Add_panics_on_bitmap_of_negative_size :
    NewBitmap (-9) = .ret (.bitmap ⟨[], 2 ^ 64 - 1, 0⟩) ∧
    0 ≤ BitSize ⟨[], 2 ^ 64 - 1, 0⟩ ∧
    Add ⟨[], 2 ^ 64 - 1, 0⟩ 0 = .panic ∧
    Has ⟨[], 2 ^ 64 - 1, 0⟩ 0 = .panic := by
  decide

/-- C2.  For every bitmap state (so for every bitmap built by `NewBitmap`) and
every offset `o ≤ BitSize()`: whenever `Del o` returns, it returns true and
`Has o` is false in the state it leaves, whether or not the bit was set. -/
theorem C2_Del_then_Has_false (fuel : Nat) (bm bm1 : Bitmap) (o : Nat) (r : Bool)
    (ho : o ≤ BitSize bm) (h : Del fuel bm o = .ret (bm1, r)) :
    Has bm1 o = .ret false :=
  (Has_Del_self fuel bm bm1 o r ho h).2

/-- Witness of C2: bits 3 and 10 set in a 16-bit map, `Del 10`. -/
theorem C2_Del_then_Has_false_witness :
    Del 8 ⟨[8, 4], 15, 10⟩ 10 = .ret (⟨[8, 0], 15, 3⟩, true) ∧
    Has ⟨[8, 0], 15, 3⟩ 10 = .ret false :=
  ⟨by decide, C2_Del_then_Has_false 8 ⟨[8, 4], 15, 10⟩ ⟨[8, 0], 15, 3⟩ 10 true (by decide) (by decide)⟩

/-- The method `Has` on all-zero storage: false, or a panic when the byte is missing. -/
theorem Has_zeros (n s m i : Nat) :
    Has ⟨List.replicate n 0, s, m⟩ i = if i ≤ s ∧ n ≤ i / 8 then .panic else .ret false := by
  rcases Nat.lt_or_ge s i with h | h
  · rw [Has_of_lt _ i h, if_neg (by omega)]
  · rcases Nat.lt_or_ge (i / 8) n with h8 | h8
    · rw [Has_of_get ⟨List.replicate n 0, s, m⟩ i 0 h (by simp [List.getElem?_replicate, h8]),
        if_neg (by omega)]
      simp
    · rw [Has_of_none ⟨List.replicate n 0, s, m⟩ i h (by simp [List.getElem?_replicate, h8]),
        if_pos ⟨h, h8⟩]

/-- C3 (code defect).  The claim: `Del o` terminates and returns true on every
bitmap state for every `o ≤ BitSize()`, also when no bit is set.  The code: on
the fresh bitmap of `NewBitmap(8)`, `Del 0` clears the bit, finds
`maxpos ≤ 0` and calls `Prev 0`, whose loop never ends: for every step budget
the call is still running. -/
theorem C3_Del_on_empty_bitmap_never_returns :
    NewBitmap 8 = .ret (.bitmap ⟨[0], 7, 0⟩) ∧
    0 ≤ BitSize ⟨[0], 7, 0⟩ ∧
    ∀ fuel, Del fuel ⟨[0], 7, 0⟩ 0 = .timeout := by
  refine ⟨by decide, by decide, fun fuel => ?_⟩
  have hz : ∀ i, Has ⟨[0], 7, 0⟩ i = .ret false := by
    intro i
    have h := Has_zeros 1 7 0 i
    rw [if_neg (by omega)] at h
    exact h
  rw [Del_of_get fuel ⟨[0], 7, 0⟩ 0 0 (by decide) (by decide)]
  have hc : cleared ⟨[0], 7, 0⟩ 0 0 = ⟨[0], 7, 0⟩ := by decide
  rw [hc, Prev_all_false _ hz fuel 0]
  rfl

/-- C4 (code defect).  The claim: when no bit is set in `[0, o]`, `Prev o`
terminates and returns `(0, false)`, the countdown stopping at 0.  The code:
the counter is a `uint64`, `i >= 0` always holds and `i--` wraps at 0.
On the fresh bitmap of `NewBitmap(8)` `Prev 0` never returns; on a 16-bit map
with only bit 10 set, `Prev 5` (nothing set in `[0, 5]`) wraps around and
returns `(10, true)`. -/
theorem C4_Prev_does_not_stop_at_zero :
    (NewBitmap 8 = .ret (.bitmap ⟨[0], 7, 0⟩) ∧
      bruteForceDown ⟨[0], 7, 0⟩ 0 = none ∧
      ∀ fuel, Prev fuel ⟨[0], 7, 0⟩ 0 = .timeout) ∧
    (NewBitmap 16 = .ret (.bitmap ⟨[0, 0], 15, 0⟩) ∧
      Add ⟨[0, 0], 15, 0⟩ 10 = .ret (⟨[0, 4], 15, 10⟩, true) ∧
      bruteForceDown ⟨[0, 4], 15, 10⟩ 5 = none ∧
      ∀ k, Prev (2 ^ 64 + k) ⟨[0, 4], 15, 10⟩ 5 = .ret (10, true)) := by
  refine ⟨⟨by decide, by decide, fun fuel => ?_⟩, by decide, by decide, by decide, fun k => ?_⟩
  · have hz : ∀ i, Has ⟨[0], 7, 0⟩ i = .ret false := by
      intro i
      have h := Has_zeros 1 7 0 i
      rw [if_neg (by omega)] at h
      exact h
    exact Prev_all_false _ hz fuel 0
  · refine Prev_wrap_found ⟨[0, 4], 15, 10⟩ 10 5 (by decide) (by norm_num) (by norm_num)
      ?_ ?_ (2 ^ 64 + k) (by omega)
    · intro i hi
      interval_cases i <;> decide
    · intro i hi
      rcases Nat.lt_or_ge 15 i with h | h
      · exact Has_of_lt _ i h
      · interval_cases i <;> decide

/-- A built bitmap in which some offset reads as set is well formed. -/
theorem Built_WF_of_set (bm : Bitmap) (q : Nat) (hb : Built bm) (hq64 : q < 2 ^ 64)
    (hq : Has bm q = .ret true) : WF bm := by
  rcases Inv_cases bm (Built_Inv bm hb) with hw | ⟨hd, hs⟩
  · exact hw
  · exfalso
    have hle : q ≤ bm.bitsize := by omega
    rw [Has_of_none bm q hle (by rw [hd]; rfl)] at hq
    simp at hq

theorem WF_Has_false (bm : Bitmap) (i : Nat) (hw : WF bm) (h : Has bm i ≠ .ret true) :
    Has bm i = .ret false := by
  obtain ⟨v, hv⟩ := WF_Has bm i hw
  cases v with
  | true => exact absurd hv h
  | false => exact hv

/-- C5.  For every built bitmap and every offset `o`: if some bit is set in
`[0, o]`, then `Prev o` returns `(p, true)` (any step budget above `o - p`
suffices), where `p` is the largest offset `≤ o` at which `Has` is true, the
offset that the brute-force downward scan of `Has` over `[0, o]` finds. -/
theorem C5_Prev_finds_largest_set_offset (bm : Bitmap) (o : Nat) (hb : Built bm)
    (ho : o < 2 ^ 64) (hset : ∃ q, q ≤ o ∧ Has bm q = .ret true) :
    ∃ p, bruteForceDown bm o = some p ∧ p ≤ o ∧ Has bm p = .ret true ∧
      (∀ q, q ≤ o → Has bm q = .ret true → q ≤ p) ∧
      ∀ fuel, o - p < fuel → Prev fuel bm o = .ret (p, true) := by
  obtain ⟨q, hqo, hq⟩ := hset
  have hw : WF bm := Built_WF_of_set bm q hb (by omega) hq
  cases hs : bruteForceDown bm o with
  | none => exact absurd hq (bruteForceDown_none bm o hs q hqo)
  | some p =>
    obtain ⟨h1, h2, h3⟩ := bruteForceDown_some bm o p hs
    refine ⟨p, rfl, h1, h2, ?_, ?_⟩
    · intro q1 hq1 hq1s
      by_contra hlt
      exact h3 q1 (by omega) hq1 hq1s
    · intro fuel hf
      exact Prev_found bm p h2 fuel o ho h1
        (fun i hi1 hi2 => WF_Has_false bm i hw (h3 i hi1 hi2)) hf

/-- Witness of C5, the scenario of the specification: bits 3, 10 and 15 set in
the bitmap of `NewBitmap(16)`, `Prev 12 = (10, true)`. -/
theorem C5_Prev_finds_largest_set_offset_witness :
    Built ⟨[8, 132], 15, 15⟩ ∧ Prev 3 ⟨[8, 132], 15, 15⟩ 12 = .ret (10, true) ∧
    ∃ p, bruteForceDown ⟨[8, 132], 15, 15⟩ 12 = some p ∧ p ≤ 12 ∧
      Has ⟨[8, 132], 15, 15⟩ p = .ret true ∧
      (∀ q, q ≤ 12 → Has ⟨[8, 132], 15, 15⟩ q = .ret true → q ≤ p) ∧
      ∀ fuel, 12 - p < fuel → Prev fuel ⟨[8, 132], 15, 15⟩ 12 = .ret (p, true) :=
  have hb : Built ⟨[8, 132], 15, 15⟩ :=
    Built.add ⟨[8, 4], 15, 10⟩ 15 _ true
      (Built.add ⟨[8, 0], 15, 3⟩ 10 _ true
        (Built.add ⟨[0, 0], 15, 0⟩ 3 _ true
          (Built.fresh 16 _ (by norm_num) (by norm_num) (by decide))
          (by norm_num) (by decide))
        (by norm_num) (by decide))
      (by norm_num) (by decide)
  ⟨hb, by decide,
    C5_Prev_finds_largest_set_offset ⟨[8, 132], 15, 15⟩ 12 hb (by norm_num) ⟨10, by decide, by decide⟩⟩

/-! ### Frame of a byte write, the loop of `Next` -/

theorem mod_ne_of_div_eq (q o : Nat) (h : q ≠ o) (hd : q / 8 = o / 8) : q % 8 ≠ o % 8 := by
  omega

/-- Clearing bit `o` leaves `Has` at every other offset unchanged. -/
theorem Has_cleared_other (bm : Bitmap) (o b q : Nat) (hb : bm.data[o / 8]? = some b)
    (hq : q ≠ o) : Has (cleared bm o b) q = Has bm q := by
  rcases Nat.lt_or_ge bm.bitsize q with hlt | hle
  · rw [Has_of_lt bm q hlt]
    exact Has_of_lt (cleared bm o b) q hlt
  · by_cases hd : q / 8 = o / 8
    · have hb1 : bm.data[q / 8]? = some b := by rw [hd]; exact hb
      unfold cleared
      rw [Has_write_same bm o q b _ _ hle hd hb, Has_of_get bm q b hle hb1,
        testBit_clearBit _ _ _ (Nat.mod_lt _ (by norm_num))]
      simp [Nat.mod_lt, mod_ne_of_div_eq q o hq hd]
    · exact Has_write_other bm o q _ _ hd

/-- Clearing the only set bit leaves a bitmap on which `Prev` never returns:
`Del m` at `m ≥ maxpos` is then still running for every step budget. -/
theorem Del_last_bit_never_returns (bm : Bitmap) (m : Nat) (hm : Has bm m = .ret true)
    (hothers : ∀ i, i ≠ m → Has bm i = .ret false) (hmax : bm.maxpos ≤ m) (fuel : Nat) :
    Del fuel bm m = .timeout := by
  have hle : m ≤ bm.bitsize := by
    by_contra hlt
    rw [Has_of_lt bm m (by omega)] at hm
    simp at hm
  cases hb : bm.data[m / 8]? with
  | none => rw [Has_of_none bm m hle hb] at hm; simp at hm
  | some b =>
    have hz : ∀ i, Has (cleared bm m b) i = .ret false := by
      intro i
      by_cases hi : i = m
      · rw [hi]; exact Has_cleared_self bm m b hle hb
      · rw [Has_cleared_other bm m b i hb hi]; exact hothers i hi
    rw [Del_of_get fuel bm m b hle hb, if_pos hmax, Prev_all_false _ hz fuel m]

/-- On a well-formed bitmap in which no offset reads as set, `Del o` for an
in-range `o ≥ maxpos` is still running for every step budget. -/
theorem Del_on_empty_never_returns (bm : Bitmap) (o : Nat) (hw : WF bm)
    (hz : ∀ i, Has bm i = .ret false) (ho : o ≤ bm.bitsize) (hmax : bm.maxpos ≤ o)
    (fuel : Nat) : Del fuel bm o = .timeout := by
  obtain ⟨b, hb⟩ := WF_get bm o hw ho
  have hc : ∀ i, Has (cleared bm o b) i = .ret false := by
    intro i
    by_cases hi : i = o
    · rw [hi]; exact Has_cleared_self bm o b ho hb
    · rw [Has_cleared_other bm o b i hb hi]; exact hz i
  rw [Del_of_get fuel bm o b ho hb, if_pos hmax, Prev_all_false _ hc fuel o]

theorem Next_step_true (fuel : Nat) (bm : Bitmap) (i : Nat) (hi : i ≤ bm.bitsize)
    (h : Has bm i = .ret true) : Next (fuel + 1) bm i = .ret (i, true) := by
  simp [Next, hi, h]

theorem Next_step_false (fuel : Nat) (bm : Bitmap) (i : Nat) (hi : i ≤ bm.bitsize)
    (h : Has bm i = .ret false) : Next (fuel + 1) bm i = Next fuel bm ((i + 1) % 2 ^ 64) := by
  simp [Next, hi, h]

theorem Next_step_panic (fuel : Nat) (bm : Bitmap) (i : Nat) (hi : i ≤ bm.bitsize)
    (h : Has bm i = .panic) : Next (fuel + 1) bm i = .panic := by
  simp [Next, hi, h]

theorem Next_step_out (fuel : Nat) (bm : Bitmap) (i : Nat) (hi : bm.bitsize < i) :
    Next (fuel + 1) bm i = .ret (0, false) := by
  have h : ¬ i ≤ bm.bitsize := by omega
  simp [Next, h]

/-- On a well-formed bitmap (capacity below `2 ^ 64`) `Next o` terminates
within `bitsize + 1 - o` probes and returns what the brute-force upward scan
of `Has` over `[o, bitsize]` finds. -/
theorem WF_Next (bm : Bitmap) (hw : WF bm) (h64 : bm.bitsize + 1 < 2 ^ 64) :
    ∀ n o fuel, bm.bitsize + 1 - o = n → n < fuel →
      Next fuel bm o = (match bruteForceUp bm o n with
        | some p => .ret (p, true)
        | none => .ret (0, false)) := by
  intro n
  induction n with
  | zero =>
    intro o fuel hn hf
    obtain ⟨k, rfl⟩ : ∃ k, fuel = k + 1 := ⟨fuel - 1, by omega⟩
    rw [Next_step_out k bm o (by omega)]
    rfl
  | succ n ih =>
    intro o fuel hn hf
    obtain ⟨k, rfl⟩ : ∃ k, fuel = k + 1 := ⟨fuel - 1, by omega⟩
    have ho : o ≤ bm.bitsize := by omega
    obtain ⟨v, hv⟩ := WF_Has bm o hw
    cases v with
    | true =>
      rw [Next_step_true k bm o ho hv]
      simp [bruteForceUp, hv]
    | false =>
      rw [Next_step_false k bm o ho hv, Nat.mod_eq_of_lt (by omega)]
      rw [ih (o + 1) k (by omega) (by omega)]
      simp [bruteForceUp, hv]

/-! ### Claims C6 to C10 -/

/-- C6 (code defect).  The claim: on every bitmap `Next o` terminates and
returns what a brute-force upward scan of `Has` over `[o, BitSize()]` finds,
`(0, false)` when nothing is set.  The code: on the storage-less bitmap that
`NewBitmap(-9)` returns (`BitSize() = 2 ^ 64 - 1`, no bit set), `Next 0`
enters the loop and panics in `Has 0` on `bm.data[0]`. -/
theorem C6_Next_panics_on_bitmap_of_negative_size :
    NewBitmap (-9) = .ret (.bitmap ⟨[], 2 ^ 64 - 1, 0⟩) ∧
    ∀ fuel, Next (fuel + 1) ⟨[], 2 ^ 64 - 1, 0⟩ 0 = .panic := by
  refine ⟨by decide, fun fuel => ?_⟩
  exact Next_step_panic fuel ⟨[], 2 ^ 64 - 1, 0⟩ 0 (Nat.zero_le _) (by decide)

/-- C7 (code defect).  The claim: when exactly one bit is set, at
`m = Maxpos()`, `Del m` returns and `Maxpos()` then shows the empty state.
The code: on the bitmap of `NewBitmap(8)` after `Add 3` (only bit 3 set,
`Maxpos() = 3`), `Del 3` clears the bit and calls `Prev 3` on a bitmap without
set bits, whose loop never ends: `Del 3` is still running for every step
budget. -/
theorem C7_Del_of_last_bit_never_returns :
    NewBitmap 8 = .ret (.bitmap ⟨[0], 7, 0⟩) ∧
    Add ⟨[0], 7, 0⟩ 3 = .ret (⟨[8], 7, 3⟩, true) ∧
    (List.range 8).filter (fun i => Has ⟨[8], 7, 3⟩ i = .ret true) = [3] ∧
    Maxpos ⟨[8], 7, 3⟩ = 3 ∧
    ∀ fuel, Del fuel ⟨[8], 7, 3⟩ 3 = .timeout := by
  refine ⟨by decide, by decide, by decide, rfl, fun fuel => ?_⟩
  refine Del_last_bit_never_returns ⟨[8], 7, 3⟩ 3 (by decide) ?_ (by decide) fuel
  intro i hi
  rcases Nat.lt_or_ge 7 i with h | h
  · exact Has_of_lt _ i h
  · interval_cases i <;> first | decide | exact absurd rfl hi

/-- C8.  For every bitmap state and every offset `o > BitSize()`: `Add o`,
`Del o` and `Has o` return false without a panic, and the state that `Add` and
`Del` leave is the state they were called on (storage, `maxpos` and `bitsize`
all unchanged; `Has` has no effect on the state). -/
theorem C8_out_of_range_is_rejected (fuel : Nat) (bm : Bitmap) (o : Nat) (ho : BitSize bm < o) :
    Add bm o = .ret (bm, false) ∧ Del fuel bm o = .ret (bm, false) ∧ Has bm o = .ret false :=
  ⟨Add_of_lt bm o ho, Del_of_lt fuel bm o ho, Has_of_lt bm o ho⟩

/-- Witness of C8: offset 16 on a 16-bit map with bits 3, 10 and 15 set. -/
theorem C8_out_of_range_is_rejected_witness :
    BitSize ⟨[8, 132], 15, 15⟩ < 16 ∧
    Add ⟨[8, 132], 15, 15⟩ 16 = .ret (⟨[8, 132], 15, 15⟩, false) ∧
    Del 0 ⟨[8, 132], 15, 15⟩ 16 = .ret (⟨[8, 132], 15, 15⟩, false) ∧
    Has ⟨[8, 132], 15, 15⟩ 16 = .ret false :=
  ⟨by decide, C8_out_of_range_is_rejected 0 ⟨[8, 132], 15, 15⟩ 16 (by decide)⟩

theorem NewBitmap_of_big (size : Int) (h : 2 ^ 32 < roundedSize size) :
    NewBitmap size = .ret .sizeOverflows := by
  unfold NewBitmap bitmapSize
  rw [if_pos h]

theorem NewBitmap_of_neg (size : Int) (h : roundedSize size < 0) : NewBitmap size = .panic := by
  unfold NewBitmap bitmapSize
  simp only [shiftRight_three]
  rw [if_neg (by omega), if_pos (by omega)]

/-- For `0 ≤ size ≤ 2 ^ 63 - 8` (no wrap-around in the rounding), `NewBitmap`
returns the error exactly when `size` rounded up to a multiple of 8 exceeds
`2 ^ 32`, and returns a bitmap otherwise. -/
theorem NewBitmap_error_iff (size : Int) (h0 : 0 ≤ size) (h1 : size ≤ 2 ^ 63 - 8) :
    (NewBitmap size = .ret .sizeOverflows ↔ 2 ^ 32 < 8 * ((size + 7) / 8)) ∧
    (¬ 2 ^ 32 < 8 * ((size + 7) / 8) → ∃ bm, NewBitmap size = .ret (.bitmap bm)) := by
  have hr := roundedSize_nonneg size h0 h1
  by_cases hbig : (2 : Int) ^ 32 < 8 * ((size + 7) / 8)
  · have hs : size ≠ 0 := by
      intro h
      rw [h] at hbig
      norm_num at hbig
    rw [if_neg hs] at hr
    have h := NewBitmap_of_big size (by rw [hr]; exact hbig)
    exact ⟨⟨fun _ => hbig, fun _ => h⟩, fun hn => absurd hbig hn⟩
  · have hok : ∃ bm, NewBitmap size = .ret (.bitmap bm) := by
      refine ⟨_, (NewBitmap_bitmap_iff size _).2 ⟨?_, ?_, rfl⟩⟩
      · rw [hr]; split <;> omega
      · rw [hr]; split <;> omega
    obtain ⟨bm, hbm⟩ := hok
    refine ⟨⟨fun h => ?_, fun h => absurd h hbig⟩, fun _ => ⟨bm, hbm⟩⟩
    rw [hbm] at h
    simp at h

/-- For the seven sizes above `2 ^ 63 - 8` the rounding wraps to `-2 ^ 63` and
`make` panics. -/
theorem NewBitmap_panics_near_max (size : Int) (h0 : 2 ^ 63 - 8 < size) (h1 : size < 2 ^ 63) :
    NewBitmap size = .panic := by
  have hr : roundedSize size = -2 ^ 63 := by
    unfold roundedSize bitmapSize
    rw [if_neg (by omega)]
    simp only [tmod_eight_nonneg size (by omega), wrapInt]
    split <;> omega
  exact NewBitmap_of_neg size (by rw [hr]; norm_num)

/-- Every bitmap that `NewBitmap` returns for a size `≥ 0` is well formed, with
a capacity of at most `2 ^ 32` bits. -/
theorem NewBitmap_WF (size : Int) (bm : Bitmap) (h0 : 0 ≤ size) (h1 : size < 2 ^ 63)
    (h : NewBitmap size = .ret (.bitmap bm)) : WF bm ∧ bm.bitsize < 2 ^ 32 := by
  rcases le_or_lt size (2 ^ 63 - 8) with hle | hgt
  · have hr := roundedSize_nonneg size h0 hle
    obtain ⟨h2, h3, h4⟩ := (NewBitmap_bitmap_iff size bm).1 h
    subst h4
    simp only [WF, List.length_replicate, toUint64, wrapInt]
    rw [hr] at h2 h3 ⊢
    split at h2 <;> omega
  · rw [NewBitmap_panics_near_max size hgt h1] at h
    simp at h

/-- C9 (code defect).  The claim: for every `size ≥ 0` of the 64-bit `int`,
`NewBitmap(size)` returns an error exactly when `size` rounded up to a
multiple of 8 exceeds `2 ^ 32`.  The code: for `size = 2 ^ 63 - 1` the rounding
`size += 8 - remainder` wraps to `-2 ^ 63`, the test `size > bitmapSize` is
false and `make([]byte, size >> 3)` panics: no error is returned although the
rounded size exceeds `2 ^ 32`.  (`NewBitmap(2 ^ 32 + 1)` does return the error
and `NewBitmap(2 ^ 32)` a bitmap.) -/
theorem C9_NewBitmap_panics_at_max_int :
    NewBitmap (2 ^ 63 - 1) = .panic ∧
    (2 : Int) ^ 32 < 8 * ((2 ^ 63 - 1 + 7) / 8) ∧
    NewBitmap (2 ^ 32 + 1) = .ret .sizeOverflows ∧
    NewBitmap (2 ^ 32) = .ret (.bitmap ⟨List.replicate (2 ^ 29) 0, 2 ^ 32 - 1, 0⟩) := by
  refine ⟨by decide, by norm_num, by decide, ?_⟩
  rw [NewBitmap_bitmap_iff]
  refine ⟨by decide, by decide, ?_⟩
  have h1 : roundedSize (2 ^ 32) = 2 ^ 32 := by decide
  rw [h1]
  have h2 : ((2 : Int) ^ 32 / 8).toNat = 2 ^ 29 := by decide
  have h3 : toUint64 (wrapInt (2 ^ 32 - 1)) = 2 ^ 32 - 1 := by decide
  rw [h2, h3]

/-- C10.  For every `size` with `1 ≤ size ≤ 2 ^ 32`, `NewBitmap(size)` returns
a bitmap with `BitSize() = 8 * ceil(size / 8) - 1`, a storage of exactly
`ceil(size / 8)` bytes, all of them zero, `Has o` false for every offset `o`,
and `Maxpos() = 0`  (`ceil(size / 8)` is `(size + 7) / 8`). -/
theorem C10_NewBitmap_fresh_state (size : Int) (h1 : 1 ≤ size) (h2 : size ≤ 2 ^ 32) :
    ∃ bm, NewBitmap size = .ret (.bitmap bm) ∧
      (BitSize bm : Int) = 8 * ((size + 7) / 8) - 1 ∧
      (bm.data.length : Int) = (size + 7) / 8 ∧
      (∀ b, b ∈ bm.data → b = 0) ∧
      (∀ o, Has bm o = .ret false) ∧
      Maxpos bm = 0 := by
  have hr := roundedSize_nonneg size (by omega) (by omega)
  rw [if_neg (by omega)] at hr
  refine ⟨_, (NewBitmap_bitmap_iff size _).2 ⟨by omega, by omega, rfl⟩, ?_, ?_, ?_, ?_, rfl⟩
  · simp only [BitSize, toUint64, wrapInt, hr]
    omega
  · simp only [List.length_replicate, hr]
    omega
  · intro b hb
    exact List.eq_of_mem_replicate hb
  · intro o
    rw [Has_zeros, if_neg]
    rintro ⟨ho1, ho2⟩
    simp only [toUint64, wrapInt, hr] at ho1 ho2
    omega

/-- Witness of C10: `NewBitmap(13)` has `BitSize() = 15` and two zero bytes. -/
theorem C10_NewBitmap_fresh_state_witness :
    NewBitmap 13 = .ret (.bitmap ⟨[0, 0], 15, 0⟩) ∧
    ∃ bm, NewBitmap 13 = .ret (.bitmap bm) ∧
      (BitSize bm : Int) = 8 * ((13 + 7) / 8) - 1 ∧
      (bm.data.length : Int) = (13 + 7) / 8 ∧
      (∀ b, b ∈ bm.data → b = 0) ∧
      (∀ o, Has bm o = .ret false) ∧
      Maxpos bm = 0 :=
  ⟨by decide, C10_NewBitmap_fresh_state 13 (by norm_num) (by norm_num)⟩

/-! ### Claims C11 to C20 -/

theorem NewBitmap_max :
    NewBitmap (2 ^ 32) = .ret (.bitmap ⟨List.replicate (2 ^ 29) 0, 2 ^ 32 - 1, 0⟩) := by
  rw [NewBitmap_bitmap_iff]
  refine ⟨by decide, by decide, ?_⟩
  have h1 : roundedSize (2 ^ 32) = 2 ^ 32 := by decide
  have h2 : ((2 : Int) ^ 32 / 8).toNat = 2 ^ 29 := by decide
  have h3 : toUint64 (wrapInt (2 ^ 32 - 1)) = 2 ^ 32 - 1 := by decide
  rw [h1, h2, h3]

theorem NewBitmap_zero : NewBitmap 0 = NewBitmap (2 ^ 32) := by
  have h : roundedSize 0 = roundedSize (2 ^ 32) := by decide
  unfold NewBitmap
  rw [h]

/-- C11.  `NewBitmap(0)` returns the maximum-capacity bitmap, `BitSize() =
2 ^ 32 - 1` with `2 ^ 29` zero bytes and `Maxpos() = 0`, the same state as
`NewBitmap(2 ^ 32)`; `NewBitmapMax()` returns that bitmap too, never `nil`. -/
theorem C11_zero_size_is_maximum :
    NewBitmap 0 = .ret (.bitmap ⟨List.replicate (2 ^ 29) 0, 2 ^ 32 - 1, 0⟩) ∧
    NewBitmap 0 = NewBitmap (2 ^ 32) ∧
    NewBitmapMax = .ret (some ⟨List.replicate (2 ^ 29) 0, 2 ^ 32 - 1, 0⟩) ∧
    BitSize ⟨List.replicate (2 ^ 29) 0, 2 ^ 32 - 1, 0⟩ = 2 ^ 32 - 1 ∧
    (List.replicate (2 ^ 29) 0).length = 2 ^ 29 ∧
    (∀ b, b ∈ List.replicate (2 ^ 29) 0 → b = 0) := by
  refine ⟨by rw [NewBitmap_zero, NewBitmap_max], NewBitmap_zero, ?_, rfl,
    List.length_replicate _ _, fun b hb => List.eq_of_mem_replicate hb⟩
  have h : NewBitmap bitmapSize = NewBitmap (2 ^ 32) := rfl
  unfold NewBitmapMax
  rw [h, NewBitmap_max]

/-- Setting bit `o` leaves `Has` at every other offset unchanged. -/
theorem Has_set_other (bm : Bitmap) (o b q m : Nat) (hb : bm.data[o / 8]? = some b)
    (hq : q ≠ o) :
    Has ⟨bm.data.set (o / 8) ((b ||| ((1 <<< (o % 8)) % 256)) % 256), bm.bitsize, m⟩ q
      = Has bm q := by
  rcases Nat.lt_or_ge bm.bitsize q with hlt | hle
  · rw [Has_of_lt bm q hlt]
    exact Has_of_lt _ q hlt
  · by_cases hd : q / 8 = o / 8
    · have hb1 : bm.data[q / 8]? = some b := by rw [hd]; exact hb
      rw [Has_write_same bm o q b _ _ hle hd hb, Has_of_get bm q b hle hb1,
        testBit_setBit _ _ _ (Nat.mod_lt _ (by norm_num))]
      simp [Nat.mod_lt, mod_ne_of_div_eq q o hq hd]
    · exact Has_write_other bm o q _ _ hd

/-- The state that a returning `Add` leaves. -/
theorem Add_ret_cases (bm bm1 : Bitmap) (o : Nat) (r : Bool) (h : Add bm o = .ret (bm1, r)) :
    (bm.bitsize < o ∧ bm1 = bm ∧ r = false) ∨
    (o ≤ bm.bitsize ∧ r = true ∧ ∃ b, bm.data[o / 8]? = some b ∧
      bm1 = ⟨bm.data.set (o / 8) ((b ||| ((1 <<< (o % 8)) % 256)) % 256), bm.bitsize,
             if bm.maxpos < o then o else bm.maxpos⟩) := by
  rcases Nat.lt_or_ge bm.bitsize o with hlt | hle
  · rw [Add_of_lt bm o hlt] at h
    simp only [Outcome.ret.injEq, Prod.mk.injEq] at h
    exact Or.inl ⟨hlt, h.1.symm, h.2.symm⟩
  · cases hb : bm.data[o / 8]? with
    | none => rw [Add_of_none bm o hle hb] at h; simp at h
    | some b =>
      rw [Add_of_get bm o b hle hb] at h
      simp only [Outcome.ret.injEq, Prod.mk.injEq] at h
      exact Or.inr ⟨hle, h.2.symm, b, rfl, h.1.symm⟩

/-- The state that a returning `Del` leaves. -/
theorem Del_ret_cases (fuel : Nat) (bm bm1 : Bitmap) (o : Nat) (r : Bool)
    (h : Del fuel bm o = .ret (bm1, r)) :
    (bm.bitsize < o ∧ bm1 = bm ∧ r = false) ∨
    (o ≤ bm.bitsize ∧ r = true ∧ ∃ b, bm.data[o / 8]? = some b ∧
      ((o < bm.maxpos ∧ bm1 = cleared bm o b) ∨
       (bm.maxpos ≤ o ∧ ∃ p f, Prev fuel (cleared bm o b) o = .ret (p, f) ∧
          bm1 = ⟨(cleared bm o b).data, bm.bitsize, p⟩))) := by
  rcases Nat.lt_or_ge bm.bitsize o with hlt | hle
  · rw [Del_of_lt fuel bm o hlt] at h
    simp only [Outcome.ret.injEq, Prod.mk.injEq] at h
    exact Or.inl ⟨hlt, h.1.symm, h.2.symm⟩
  · cases hb : bm.data[o / 8]? with
    | none => rw [Del_of_none fuel bm o hle hb] at h; simp at h
    | some b =>
      rw [Del_of_get fuel bm o b hle hb] at h
      right
      split at h
      · rename_i hmax
        cases hp : Prev fuel (cleared bm o b) o with
        | ret pf =>
          obtain ⟨p, f⟩ := pf
          rw [hp] at h
          simp only [Outcome.ret.injEq, Prod.mk.injEq] at h
          exact ⟨hle, h.2.symm, b, rfl, Or.inr ⟨hmax, p, f, hp, h.1.symm⟩⟩
        | panic => rw [hp] at h; simp at h
        | timeout => rw [hp] at h; simp at h
      · rename_i hmax
        simp only [Outcome.ret.injEq, Prod.mk.injEq] at h
        exact ⟨hle, h.2.symm, b, rfl, Or.inl ⟨by omega, h.1.symm⟩⟩

/-- The loop of `Prev` does not read `maxpos`. -/
theorem Prev_maxpos (d : List Nat) (s m m1 : Nat) :
    ∀ fuel i, Prev fuel ⟨d, s, m⟩ i = Prev fuel ⟨d, s, m1⟩ i := by
  intro fuel
  induction fuel with
  | zero => intro i; rfl
  | succ n ih =>
    intro i
    unfold Prev
    rw [Has_maxpos d s m m1 i, ih]

/-- C19.  `Add` and `Del` touch only the addressed bit: for every bitmap
state, every offset `o` and every offset `p ≠ o`, in the state that a returning
`Add o` leaves, and in the state that a returning `Del o` leaves, `Has p` is
what it was before the call and `BitSize()` is unchanged. -/
theorem C19_Add_Del_touch_only_their_bit (fuel : Nat) (bm : Bitmap) (o p : Nat) (hp : p ≠ o) :
    (∀ bm1 r, Add bm o = .ret (bm1, r) → Has bm1 p = Has bm p ∧ BitSize bm1 = BitSize bm) ∧
    (∀ bm1 r, Del fuel bm o = .ret (bm1, r) → Has bm1 p = Has bm p ∧ BitSize bm1 = BitSize bm) := by
  constructor
  · intro bm1 r h
    rcases Add_ret_cases bm bm1 o r h with ⟨-, h1, -⟩ | ⟨-, -, b, hb, h1⟩
    · rw [h1]; exact ⟨rfl, rfl⟩
    · rw [h1]
      exact ⟨Has_set_other bm o b p _ hb hp, rfl⟩
  · intro bm1 r h
    rcases Del_ret_cases fuel bm bm1 o r h with ⟨-, h1, -⟩ | ⟨-, -, b, hb, h1⟩
    · rw [h1]; exact ⟨rfl, rfl⟩
    · rcases h1 with ⟨-, h1⟩ | ⟨-, q, f, -, h1⟩
      · rw [h1]
        exact ⟨Has_cleared_other bm o b p hb hp, rfl⟩
      · rw [h1]
        exact ⟨Has_cleared_other bm o b p hb hp, rfl⟩

/-- Witness of C19: bits 3, 10 and 15 set in a 16-bit map; `Add 11` and
`Del 10` leave `Has 3` as it was. -/
theorem C19_Add_Del_touch_only_their_bit_witness :
    Add ⟨[8, 132], 15, 15⟩ 11 = .ret (⟨[8, 140], 15, 15⟩, true) ∧
    Del 0 ⟨[8, 132], 15, 15⟩ 10 = .ret (⟨[8, 128], 15, 15⟩, true) ∧
    (Has ⟨[8, 140], 15, 15⟩ 3 = Has ⟨[8, 132], 15, 15⟩ 3 ∧
      BitSize ⟨[8, 140], 15, 15⟩ = BitSize ⟨[8, 132], 15, 15⟩) ∧
    (Has ⟨[8, 128], 15, 15⟩ 3 = Has ⟨[8, 132], 15, 15⟩ 3 ∧
      BitSize ⟨[8, 128], 15, 15⟩ = BitSize ⟨[8, 132], 15, 15⟩) :=
  ⟨by decide, by decide,
    (C19_Add_Del_touch_only_their_bit 0 ⟨[8, 132], 15, 15⟩ 11 3 (by decide)).1 _ true (by decide),
    (C19_Add_Del_touch_only_their_bit 0 ⟨[8, 132], 15, 15⟩ 10 3 (by decide)).2 _ true (by decide)⟩

theorem setBit_idem (b pos : Nat) (hpos : pos < 8) :
    ((((b ||| ((1 <<< pos) % 256)) % 256) ||| ((1 <<< pos) % 256)) % 256)
      = (b ||| ((1 <<< pos) % 256)) % 256 := by
  apply Nat.eq_of_testBit_eq
  intro i
  rw [testBit_setBit _ _ _ hpos, testBit_setBit _ _ _ hpos]
  cases decide (i < 8) <;> cases b.testBit i <;> cases decide (i = pos) <;> rfl

theorem clearBit_idem (b pos : Nat) (hpos : pos < 8) :
    ((((b &&& (255 ^^^ ((1 <<< pos) % 256))) % 256) &&& (255 ^^^ ((1 <<< pos) % 256))) % 256)
      = (b &&& (255 ^^^ ((1 <<< pos) % 256))) % 256 := by
  apply Nat.eq_of_testBit_eq
  intro i
  rw [testBit_clearBit _ _ _ hpos, testBit_clearBit _ _ _ hpos]
  cases decide (i < 8) <;> cases b.testBit i <;> cases decide (i = pos) <;> rfl

theorem set_set_same (l : List Nat) (i v w : Nat) : (l.set i v).set i w = l.set i w := by
  simp

theorem get_set_same (l : List Nat) (i b v : Nat) (h : l[i]? = some b) :
    (l.set i v)[i]? = some v :=
  List.getElem?_set_self (lt_length_of_get l i b h)

/-- Clearing bit `o` a second time changes nothing. -/
theorem cleared_idem (bm : Bitmap) (o b m : Nat) :
    cleared ⟨(cleared bm o b).data, bm.bitsize, m⟩ o
        ((b &&& (255 ^^^ ((1 <<< (o % 8)) % 256))) % 256)
      = ⟨(cleared bm o b).data, bm.bitsize, m⟩ := by
  simp only [cleared, set_set_same, clearBit_idem b (o % 8) (Nat.mod_lt _ (by norm_num))]

/-- C14.  `Add` and `Del` are idempotent: for every bitmap state and offset
`o`, when `Add o` returns and leaves the state `bm1`, a second `Add o` returns
the same result and leaves `bm1` again; when `Del o` returns and leaves `bm1`,
a second `Del o` returns the same result and leaves `bm1` again.  The whole
state is the same, so `Has` at every offset, `Maxpos()` and `BitSize()` are. -/
theorem C14_Add_Del_idempotent (fuel : Nat) (bm : Bitmap) (o : Nat) :
    (∀ bm1 r, Add bm o = .ret (bm1, r) → Add bm1 o = .ret (bm1, r)) ∧
    (∀ bm1 r, Del fuel bm o = .ret (bm1, r) → Del fuel bm1 o = .ret (bm1, r)) := by
  have h8 : o % 8 < 8 := Nat.mod_lt _ (by norm_num)
  constructor
  · intro bm1 r h
    rcases Add_ret_cases bm bm1 o r h with ⟨hlt, h1, h2⟩ | ⟨hle, h2, b, hb, h1⟩
    · rw [h1, h2]; exact Add_of_lt bm o hlt
    · have key := Add_of_get bm1 o ((b ||| ((1 <<< (o % 8)) % 256)) % 256)
        (by rw [h1]; exact hle) (by rw [h1]; exact get_set_same bm.data (o / 8) b _ hb)
      rw [key, h2]
      subst h1
      simp only [set_set_same, setBit_idem b (o % 8) h8]
      have hm : ¬ (if bm.maxpos < o then o else bm.maxpos) < o := by
        split <;> omega
      rw [if_neg hm]
  · intro bm1 r h
    rcases Del_ret_cases fuel bm bm1 o r h with ⟨hlt, h1, h2⟩ | ⟨hle, h2, b, hb, h1⟩
    · rw [h1, h2]; exact Del_of_lt fuel bm o hlt
    · have hshape : ∃ m, bm1 = ⟨(cleared bm o b).data, bm.bitsize, m⟩ ∧
          (m ≤ o → Prev fuel (cleared bm o b) o = .ret (m, true)) := by
        rcases h1 with ⟨hlt, h1⟩ | ⟨hmax, p, f, hprev, h1⟩
        · exact ⟨bm.maxpos, h1, fun hmo => by omega⟩
        · refine ⟨p, h1, fun _ => ?_⟩
          rw [hprev, (Prev_ret_true _ fuel o p f hprev).1]
      obtain ⟨m, hm1, hmprev⟩ := hshape
      have key := Del_of_get fuel bm1 o ((b &&& (255 ^^^ ((1 <<< (o % 8)) % 256))) % 256)
        (by rw [hm1]; exact hle) (by rw [hm1]; exact get_set_same bm.data (o / 8) b _ hb)
      rw [key, h2]
      subst hm1
      rw [cleared_idem]
      split
      · rename_i hmo
        have hp : Prev fuel ⟨(cleared bm o b).data, bm.bitsize, m⟩ o = .ret (m, true) := by
          rw [← hmprev hmo]
          exact Prev_maxpos _ _ _ _ fuel o
        rw [hp]
      · rfl

/-- Witness of C14: bits 3, 10 and 15 set in a 16-bit map; a second `Add 11`
and a second `Del 15` change nothing. -/
theorem C14_Add_Del_idempotent_witness :
    Add ⟨[8, 132], 15, 15⟩ 11 = .ret (⟨[8, 140], 15, 15⟩, true) ∧
    Add ⟨[8, 140], 15, 15⟩ 11 = .ret (⟨[8, 140], 15, 15⟩, true) ∧
    Del 8 ⟨[8, 132], 15, 15⟩ 15 = .ret (⟨[8, 4], 15, 10⟩, true) ∧
    Del 8 ⟨[8, 4], 15, 10⟩ 15 = .ret (⟨[8, 4], 15, 10⟩, true) :=
  ⟨by decide,
    (C14_Add_Del_idempotent 8 ⟨[8, 132], 15, 15⟩ 11).1 _ true (by decide),
    by decide,
    (C14_Add_Del_idempotent 8 ⟨[8, 132], 15, 15⟩ 15).2 _ true (by decide)⟩

/-! ### Runs of `Add`, the invariant of `maxpos` -/

/-- A returning run of `Add` calls on in-range offsets keeps `bitsize` and
raises `maxpos` to the largest of its old value and the offsets added. -/
theorem AddAll_maxpos :
    ∀ (os : List Nat) (bm bm1 : Bitmap), AddAll bm os = .ret bm1 →
      (∀ o, o ∈ os → o ≤ bm.bitsize) →
      bm1.bitsize = bm.bitsize ∧ bm.maxpos ≤ bm1.maxpos ∧ (∀ o, o ∈ os → o ≤ bm1.maxpos) ∧
      (bm1.maxpos = bm.maxpos ∨ bm1.maxpos ∈ os) := by
  intro os
  induction os with
  | nil =>
    intro bm bm1 h _
    simp only [AddAll, Outcome.ret.injEq] at h
    subst h
    exact ⟨rfl, le_rfl, fun o ho => by simp at ho, Or.inl rfl⟩
  | cons a os ih =>
    intro bm bm1 h hin
    unfold AddAll at h
    cases ha : Add bm a with
    | ret x =>
      obtain ⟨bm2, r⟩ := x
      rw [ha] at h
      have hale : a ≤ bm.bitsize := hin a (List.mem_cons_self a os)
      rcases Add_ret_cases bm bm2 a r ha with ⟨hlt, -, -⟩ | ⟨-, -, b, -, h2⟩
      · omega
      · have hbs : bm2.bitsize = bm.bitsize := by rw [h2]
        have hmx : bm2.maxpos = if bm.maxpos < a then a else bm.maxpos := by rw [h2]
        obtain ⟨i1, i2, i3, i4⟩ := ih bm2 bm1 h
          (fun o ho => by rw [hbs]; exact hin o (List.mem_cons_of_mem a ho))
        refine ⟨by rw [i1, hbs], ?_, ?_, ?_⟩
        · rw [hmx] at i2
          split at i2 <;> omega
        · intro o ho
          rcases List.mem_cons.1 ho with rfl | ho1
          · rw [hmx] at i2
            split at i2 <;> omega
          · exact i3 o ho1
        · rcases i4 with i4 | i4
          · rw [hmx] at i4
            split at i4
            · right; rw [i4]; exact List.mem_cons_self a os
            · left; exact i4
          · right; exact List.mem_cons_of_mem a i4
    | panic => rw [ha] at h; simp at h
    | timeout => rw [ha] at h; simp at h

theorem WF_Add (bm bm1 : Bitmap) (o : Nat) (r : Bool) (hw : WF bm)
    (h : Add bm o = .ret (bm1, r)) : WF bm1 := by
  obtain ⟨h1, h2⟩ := Add_keeps bm bm1 o r h
  unfold WF at hw ⊢
  rw [h1, h2]
  exact hw

theorem WF_Del (fuel : Nat) (bm bm1 : Bitmap) (o : Nat) (r : Bool) (hw : WF bm)
    (h : Del fuel bm o = .ret (bm1, r)) : WF bm1 := by
  obtain ⟨h1, h2⟩ := Del_keeps fuel bm bm1 o r h
  unfold WF at hw ⊢
  rw [h1, h2]
  exact hw

/-- On a well-formed bitmap every run of `Add` calls on in-range offsets
returns. -/
theorem WF_AddAll :
    ∀ (os : List Nat) (bm : Bitmap), WF bm → (∀ o, o ∈ os → o ≤ bm.bitsize) →
      ∃ bm1, AddAll bm os = .ret bm1 := by
  intro os
  induction os with
  | nil => intro bm _ _; exact ⟨bm, rfl⟩
  | cons a os ih =>
    intro bm hw hin
    obtain ⟨bm2, h2, -⟩ := WF_Add_Has bm a hw (hin a (List.mem_cons_self a os))
    obtain ⟨hbs, -⟩ := Add_keeps bm bm2 a true h2
    obtain ⟨bm1, h1⟩ := ih bm2 (WF_Add bm bm2 a true hw h2)
      (fun o ho => by rw [hbs]; exact hin o (List.mem_cons_of_mem a ho))
    refine ⟨bm1, ?_⟩
    unfold AddAll
    rw [h2]
    exact h1

/-- C12.  From the fresh bitmap of `NewBitmap(size)`, after a non-empty run of
`Add` calls on in-range offsets (no `Del`), `Maxpos()` is the largest offset
passed to `Add`: it is one of them and bounds all of them.  The run returns
whenever the bitmap has storage (it has for every `size ≥ 0`). -/
theorem C12_Maxpos_after_Adds (size : Int) (bm : Bitmap) (os : List Nat)
    (hlo : -2 ^ 63 ≤ size) (hhi : size < 2 ^ 63)
    (hnew : NewBitmap size = .ret (.bitmap bm)) (hne : os ≠ [])
    (hin : ∀ o, o ∈ os → o ≤ BitSize bm) :
    (∀ bm1, AddAll bm os = .ret bm1 →
      Maxpos bm1 ∈ os ∧ ∀ o, o ∈ os → o ≤ Maxpos bm1) ∧
    (bm.data ≠ [] → ∃ bm1, AddAll bm os = .ret bm1) := by
  have hm0 : bm.maxpos = 0 := by
    obtain ⟨-, -, h3⟩ := (NewBitmap_bitmap_iff size bm).1 hnew
    rw [h3]
  constructor
  · intro bm1 h
    obtain ⟨-, -, i3, i4⟩ := AddAll_maxpos os bm bm1 h hin
    refine ⟨?_, i3⟩
    rcases i4 with i4 | i4
    · obtain ⟨a, ha⟩ := List.exists_mem_of_ne_nil os hne
      have h0 : a ≤ bm1.maxpos := i3 a ha
      have ha0 : a = Maxpos bm1 := by
        unfold Maxpos
        omega
      rw [← ha0]
      exact ha
    · exact i4
  · intro hd
    rcases Inv_cases bm (NewBitmap_Inv size bm hlo hhi hnew) with hw | ⟨he, -⟩
    · exact WF_AddAll os bm hw hin
    · exact absurd he hd

/-- Witness of C12, the scenario of the specification: `Add` 3, 10, 15 on the
bitmap of `NewBitmap(16)` gives `Maxpos() = 15`. -/
theorem C12_Maxpos_after_Adds_witness :
    AddAll ⟨[0, 0], 15, 0⟩ [3, 10, 15] = .ret ⟨[8, 132], 15, 15⟩ ∧
    Maxpos ⟨[8, 132], 15, 15⟩ = 15 ∧
    (Maxpos ⟨[8, 132], 15, 15⟩ ∈ [3, 10, 15] ∧
      ∀ o, o ∈ [3, 10, 15] → o ≤ Maxpos ⟨[8, 132], 15, 15⟩) :=
  ⟨by decide, rfl,
    (C12_Maxpos_after_Adds 16 ⟨[0, 0], 15, 0⟩ [3, 10, 15] (by norm_num) (by norm_num)
      (by decide) (by decide) (by decide)).1 _ (by decide)⟩

/-- When nothing reads as set above `o`, a returning `Prev o` has not wrapped:
it returns an offset `p ≤ o` and nothing reads as set in `(p, o]`. -/
theorem Prev_ret_below (bm : Bitmap) :
    ∀ fuel o p f, o < 2 ^ 64 → (∀ i, o < i → Has bm i ≠ .ret true) →
      Prev fuel bm o = .ret (p, f) →
      p ≤ o ∧ ∀ i, p < i → i ≤ o → Has bm i ≠ .ret true := by
  intro fuel
  induction fuel with
  | zero => intro o p f _ _ h; simp [Prev] at h
  | succ n ih =>
    intro o p f ho habove h
    cases hh : Has bm o with
    | ret v =>
      cases v with
      | true =>
        rw [Prev_step_true n bm o hh] at h
        simp only [Outcome.ret.injEq, Prod.mk.injEq] at h
        rw [← h.1]
        exact ⟨le_rfl, fun i h1 h2 => by omega⟩
      | false =>
        rw [Prev_step_false n bm o hh] at h
        have hset := (Prev_ret_true bm n _ p f h).2
        rcases Nat.eq_zero_or_pos o with h0 | hpos
        · exfalso
          rcases Nat.eq_zero_or_pos p with hp0 | hppos
          · rw [hp0, ← h0, hh] at hset
            simp at hset
          · exact habove p (by omega) hset
        · rw [dec_u64 o hpos ho] at h
          have habove1 : ∀ i, o - 1 < i → Has bm i ≠ .ret true := by
            intro i hi
            rcases Nat.eq_or_lt_of_le (show o ≤ i by omega) with heq | hlt
            · rw [← heq, hh]; simp
            · exact habove i hlt
          obtain ⟨h1, h2⟩ := ih (o - 1) p f (by omega) habove1 h
          refine ⟨by omega, fun i hi1 hi2 => ?_⟩
          rcases Nat.eq_or_lt_of_le hi2 with heq | hlt
          · rw [heq, hh]; simp
          · exact h2 i hi1 (by omega)
    | panic => rw [Prev_step_panic n bm o hh] at h; simp at h
    | timeout => exact absurd hh (Has_ne_timeout bm o)

theorem MaxInv_fresh (size : Int) (bm : Bitmap) (h : NewBitmap size = .ret (.bitmap bm)) :
    MaxInv bm := by
  obtain ⟨-, -, h3⟩ := (NewBitmap_bitmap_iff size bm).1 h
  have hz : ∀ o, Has bm o ≠ .ret true := by
    intro o
    rw [h3, Has_zeros]
    split <;> simp
  refine ⟨by rw [h3]; exact Nat.zero_le _, fun o ho => absurd ho (hz o),
    fun ⟨o, ho⟩ => absurd ho (hz o), fun _ => by rw [h3]⟩

theorem MaxInv_Add (bm bm1 : Bitmap) (o : Nat) (r : Bool) (hi : MaxInv bm)
    (h : Add bm o = .ret (bm1, r)) : MaxInv bm1 := by
  obtain ⟨i1, i2, i3, i4⟩ := hi
  rcases Add_ret_cases bm bm1 o r h with ⟨-, h1, -⟩ | ⟨hle, h2, b, hb, h1⟩
  · rw [h1]; exact ⟨i1, i2, i3, i4⟩
  · have hself : Has bm1 o = .ret true := (Has_Add_self bm bm1 o r hle h).2
    have hother : ∀ q, q ≠ o → Has bm1 q = Has bm q := by
      intro q hq
      rw [h1]
      exact Has_set_other bm o b q _ hb hq
    have hmx : bm1.maxpos = if bm.maxpos < o then o else bm.maxpos := by rw [h1]
    have hbs : bm1.bitsize = bm.bitsize := by rw [h1]
    refine ⟨?_, ?_, ?_, ?_⟩
    · rw [hmx, hbs]; split <;> omega
    · intro q hq
      by_cases hqo : q = o
      · rw [hmx, hqo]; split <;> omega
      · rw [hother q hqo] at hq
        have := i2 q hq
        rw [hmx]; split <;> omega
    · intro _
      by_cases hlt : bm.maxpos < o
      · rw [hmx, if_pos hlt]; exact hself
      · rw [hmx, if_neg hlt]
        by_cases hmo : bm.maxpos = o
        · rw [hmo]; exact hself
        · rw [hother _ hmo]
          apply i3
          by_contra hnone
          have hall : ∀ q, Has bm q ≠ .ret true := fun q hq => hnone ⟨q, hq⟩
          have := i4 hall
          omega
    · intro hall
      exact absurd hself (hall o)

theorem MaxInv_Del (fuel : Nat) (bm bm1 : Bitmap) (o : Nat) (r : Bool) (ho : o < 2 ^ 64)
    (hi : MaxInv bm) (h : Del fuel bm o = .ret (bm1, r)) : MaxInv bm1 := by
  obtain ⟨i1, i2, i3, i4⟩ := hi
  rcases Del_ret_cases fuel bm bm1 o r h with ⟨-, h1, -⟩ | ⟨hle, h2, b, hb, h1⟩
  · rw [h1]; exact ⟨i1, i2, i3, i4⟩
  · have hcself : Has (cleared bm o b) o = .ret false := Has_cleared_self bm o b hle hb
    have hcother : ∀ q, q ≠ o → Has (cleared bm o b) q = Has bm q :=
      fun q hq => Has_cleared_other bm o b q hb hq
    have hcsub : ∀ q, Has (cleared bm o b) q = .ret true → q ≠ o ∧ Has bm q = .ret true := by
      intro q hq
      have hqo : q ≠ o := by
        intro he
        rw [he, hcself] at hq
        simp at hq
      exact ⟨hqo, by rw [← hcother q hqo]; exact hq⟩
    rcases h1 with ⟨hlt, h1⟩ | ⟨hmax, p, f, hprev, h1⟩
    · rw [h1]
      have hnonempty : Has bm bm.maxpos = .ret true := by
        apply i3
        by_contra hnone
        have hall : ∀ q, Has bm q ≠ .ret true := fun q hq => hnone ⟨q, hq⟩
        have := i4 hall
        omega
      have hkeep : Has (cleared bm o b) bm.maxpos = .ret true := by
        rw [hcother _ (by omega)]; exact hnonempty
      exact ⟨i1, fun q hq => i2 q (hcsub q hq).2, fun _ => hkeep,
        fun hall => absurd hkeep (hall _)⟩
    · have habove : ∀ i, o < i → Has (cleared bm o b) i ≠ .ret true := by
        intro i hi hset
        have := i2 i (hcsub i hset).2
        omega
      obtain ⟨hpo, hgap⟩ := Prev_ret_below (cleared bm o b) fuel o p f ho habove hprev
      have hpset : Has (cleared bm o b) p = .ret true :=
        (Prev_ret_true (cleared bm o b) fuel o p f hprev).2
      have hsame : ∀ q, Has bm1 q = Has (cleared bm o b) q := by
        intro q
        rw [h1]
        rfl
      have hmx : bm1.maxpos = p := by rw [h1]
      have hbs : bm1.bitsize = bm.bitsize := by rw [h1]
      refine ⟨?_, ?_, ?_, ?_⟩
      · rw [hmx, hbs]
        by_contra hgt
        rw [Has_of_lt (cleared bm o b) p (by show bm.bitsize < p; omega)] at hpset
        simp at hpset
      · intro q hq
        rw [hsame] at hq
        rw [hmx]
        by_contra hgt
        rcases Nat.lt_or_ge o q with hoq | hqo
        · exact habove q hoq hq
        · exact hgap q (by omega) hqo hq
      · intro _
        rw [hmx, hsame]; exact hpset
      · intro hall
        exact absurd (by rw [hsame]; exact hpset) (hall p)

/-- Every built bitmap satisfies the invariant of `maxpos`. -/
theorem Built_MaxInv (bm : Bitmap) (h : Built bm) : MaxInv bm := by
  induction h with
  | fresh size bm _ _ h => exact MaxInv_fresh size bm h
  | add bm o bm1 r _ _ h ih => exact MaxInv_Add bm bm1 o r ih h
  | del fuel bm o bm1 r _ ho h ih => exact MaxInv_Del fuel bm bm1 o r ho ih h

/-- C13.  In every state reached from a bitmap returned by `NewBitmap` through
`Add` and `Del` calls that return: `Maxpos() ≤ BitSize()`, and whenever some
offset reads as set, `Maxpos()` is the largest such offset (it reads as set and
every set offset is at or below it). -/
theorem C13_Maxpos_is_largest_set_offset (bm : Bitmap) (hb : Built bm) :
    Maxpos bm ≤ BitSize bm ∧
    ((∃ o, Has bm o = .ret true) →
      Has bm (Maxpos bm) = .ret true ∧ ∀ o, Has bm o = .ret true → o ≤ Maxpos bm) := by
  obtain ⟨i1, i2, i3, -⟩ := Built_MaxInv bm hb
  exact ⟨i1, fun hne => ⟨i3 hne, i2⟩⟩

/-- The scenario of the specification is a built bitmap: `NewBitmap(16)`, then
`Add` 3, 10 and 15. -/
theorem Built_scenario : Built ⟨[8, 132], 15, 15⟩ :=
  Built.add ⟨[8, 4], 15, 10⟩ 15 _ true
    (Built.add ⟨[8, 0], 15, 3⟩ 10 _ true
      (Built.add ⟨[0, 0], 15, 0⟩ 3 _ true
        (Built.fresh 16 _ (by norm_num) (by norm_num) (by decide))
        (by norm_num) (by decide))
      (by norm_num) (by decide))
    (by norm_num) (by decide)

/-- Witness of C13: bits 3, 10 and 15 set in the bitmap of `NewBitmap(16)`,
`Maxpos() = 15`. -/
theorem C13_Maxpos_is_largest_set_offset_witness :
    Built ⟨[8, 132], 15, 15⟩ ∧ Maxpos ⟨[8, 132], 15, 15⟩ = 15 ∧
    Maxpos ⟨[8, 132], 15, 15⟩ ≤ BitSize ⟨[8, 132], 15, 15⟩ ∧
    Has ⟨[8, 132], 15, 15⟩ (Maxpos ⟨[8, 132], 15, 15⟩) = .ret true ∧
    ∀ o, Has ⟨[8, 132], 15, 15⟩ o = .ret true → o ≤ Maxpos ⟨[8, 132], 15, 15⟩ :=
  have h := C13_Maxpos_is_largest_set_offset ⟨[8, 132], 15, 15⟩ Built_scenario
  ⟨Built_scenario, rfl, h.1, h.2 ⟨3, by decide⟩⟩

/-- A built bitmap with `maxpos > 0`, or with a set offset, has its storage. -/
theorem Built_WF_of_maxpos (bm : Bitmap) (hb : Built bm) (hm : 0 < bm.maxpos) : WF bm := by
  rcases Inv_cases bm (Built_Inv bm hb) with hw | ⟨hd, hs⟩
  · exact hw
  · exfalso
    obtain ⟨-, -, -, i4⟩ := Built_MaxInv bm hb
    have hall : ∀ o, Has bm o ≠ .ret true := by
      intro o ho
      have ho64 : o ≤ bm.bitsize := by
        by_contra hgt
        rw [Has_of_lt bm o (by omega)] at ho
        simp at ho
      rw [Has_of_none bm o ho64 (by rw [hd]; rfl)] at ho
      simp at ho
    have := i4 hall
    omega

/-- C16.  For every built bitmap and every in-range offset `o`:
if `o < Maxpos()`, `Del o` returns true and leaves `Maxpos()` unchanged;
if `o ≥ Maxpos()` and some offset below `o` is set (so a bit is still set in
`[0, o]` once bit `o` is cleared), `Del o` returns true and sets `Maxpos()` to
`p`, the largest set offset below `o` (any step budget above `o - p` suffices). -/
theorem C16_Del_updates_Maxpos (bm : Bitmap) (o : Nat) (hb : Built bm) (ho : o ≤ BitSize bm) :
    (o < Maxpos bm → ∀ fuel, ∃ bm1, Del fuel bm o = .ret (bm1, true) ∧ Maxpos bm1 = Maxpos bm) ∧
    (Maxpos bm ≤ o → ∀ p, p < o → Has bm p = .ret true →
      (∀ q, q < o → Has bm q = .ret true → q ≤ p) →
      ∀ fuel, o - p < fuel → ∃ bm1, Del fuel bm o = .ret (bm1, true) ∧ Maxpos bm1 = p) := by
  have h64 : bm.bitsize < 2 ^ 64 := (Built_Inv bm hb).1
  constructor
  · intro hlt fuel
    have hw : WF bm := Built_WF_of_maxpos bm hb (by unfold Maxpos at hlt; omega)
    obtain ⟨b, hbyte⟩ := WF_get bm o hw ho
    refine ⟨cleared bm o b, ?_, rfl⟩
    rw [Del_of_get fuel bm o b ho hbyte, if_neg (by unfold Maxpos at hlt; omega)]
  · intro hmax p hpo hp hlargest fuel hf
    have hp64 : p < 2 ^ 64 := by unfold BitSize at ho; omega
    have hw : WF bm := Built_WF_of_set bm p hb hp64 hp
    obtain ⟨b, hbyte⟩ := WF_get bm o hw ho
    have hwc : WF (cleared bm o b) := by
      unfold WF cleared at *
      simpa using hw
    have hcp : Has (cleared bm o b) p = .ret true := by
      rw [Has_cleared_other bm o b p hbyte (by omega)]; exact hp
    have hgap : ∀ i, p < i → i ≤ o → Has (cleared bm o b) i = .ret false := by
      intro i hi1 hi2
      rcases Nat.eq_or_lt_of_le hi2 with heq | hlt
      · rw [heq]; exact Has_cleared_self bm o b ho hbyte
      · rw [Has_cleared_other bm o b i hbyte (by omega)]
        apply WF_Has_false bm i hw
        intro hset
        have := hlargest i hlt hset
        omega
    have hprev := Prev_found (cleared bm o b) p hcp fuel o (by unfold BitSize at ho; omega)
      (by omega) hgap hf
    refine ⟨⟨(cleared bm o b).data, bm.bitsize, p⟩, ?_, rfl⟩
    rw [Del_of_get fuel bm o b ho hbyte, if_pos (by unfold Maxpos at hmax; omega), hprev]
    rfl

/-- Witness of C16, the scenario of the specification: bits 3, 10 and 15 set;
`Del 15` gives `Maxpos() = 10`, and `Del 3` (below `Maxpos()`) leaves it at 15. -/
theorem C16_Del_updates_Maxpos_witness :
    Del 6 ⟨[8, 132], 15, 15⟩ 15 = .ret (⟨[8, 4], 15, 10⟩, true) ∧
    Del 0 ⟨[8, 132], 15, 15⟩ 3 = .ret (⟨[0, 132], 15, 15⟩, true) ∧
    (∃ bm1, Del 0 ⟨[8, 132], 15, 15⟩ 3 = .ret (bm1, true) ∧
      Maxpos bm1 = Maxpos ⟨[8, 132], 15, 15⟩) ∧
    (∃ bm1, Del 6 ⟨[8, 132], 15, 15⟩ 15 = .ret (bm1, true) ∧ Maxpos bm1 = 10) :=
  ⟨by decide, by decide,
    (C16_Del_updates_Maxpos ⟨[8, 132], 15, 15⟩ 3 Built_scenario (by decide)).1 (by decide) 0,
    (C16_Del_updates_Maxpos ⟨[8, 132], 15, 15⟩ 15 Built_scenario (by decide)).2 (by decide)
      10 (by decide) (by decide)
      (by
        intro q hq hset
        by_contra hgt
        have h1 : 10 < q := by omega
        interval_cases q <;> revert hset <;> decide)
      6 (by decide)⟩

/-! ### No out-of-bounds access on a well-formed bitmap -/

theorem WF_Has_ne_panic (bm : Bitmap) (o : Nat) (hw : WF bm) : Has bm o ≠ .panic := by
  obtain ⟨v, hv⟩ := WF_Has bm o hw
  rw [hv]
  simp

theorem WF_Prev_ne_panic (bm : Bitmap) (hw : WF bm) : ∀ fuel o, Prev fuel bm o ≠ .panic := by
  intro fuel
  induction fuel with
  | zero => intro o; simp [Prev]
  | succ n ih =>
    intro o
    obtain ⟨v, hv⟩ := WF_Has bm o hw
    cases v with
    | true => rw [Prev_step_true n bm o hv]; simp
    | false => rw [Prev_step_false n bm o hv]; exact ih _

theorem WF_Next_ne_panic (bm : Bitmap) (hw : WF bm) : ∀ fuel o, Next fuel bm o ≠ .panic := by
  intro fuel
  induction fuel with
  | zero => intro o; simp [Next]
  | succ n ih =>
    intro o
    rcases Nat.lt_or_ge bm.bitsize o with hlt | hle
    · rw [Next_step_out n bm o hlt]; simp
    · obtain ⟨v, hv⟩ := WF_Has bm o hw
      cases v with
      | true => rw [Next_step_true n bm o hle hv]; simp
      | false => rw [Next_step_false n bm o hle hv]; exact ih _

theorem WF_Add_ne_panic (bm : Bitmap) (o : Nat) (hw : WF bm) : Add bm o ≠ .panic := by
  rcases Nat.lt_or_ge bm.bitsize o with hlt | hle
  · rw [Add_of_lt bm o hlt]; simp
  · obtain ⟨bm1, h, -⟩ := WF_Add_Has bm o hw hle
    rw [h]; simp

theorem WF_Del_ne_panic (fuel : Nat) (bm : Bitmap) (o : Nat) (hw : WF bm) :
    Del fuel bm o ≠ .panic := by
  rcases Nat.lt_or_ge bm.bitsize o with hlt | hle
  · rw [Del_of_lt fuel bm o hlt]; simp
  · obtain ⟨b, hb⟩ := WF_get bm o hw hle
    have hwc : WF (cleared bm o b) := by
      unfold WF cleared at *
      simpa using hw
    rw [Del_of_get fuel bm o b hle hb]
    split
    · have hp := WF_Prev_ne_panic (cleared bm o b) hwc fuel o
      cases hq : Prev fuel (cleared bm o b) o with
      | ret x => simp
      | panic => exact absurd hq hp
      | timeout => simp
    · simp

/-- Calls that return keep `bitsize` and the well-formedness of the start. -/
theorem Reach_WF (bm0 bm : Bitmap) (hw : WF bm0) (hr : Reach bm0 bm) :
    WF bm ∧ bm.bitsize = bm0.bitsize := by
  induction hr with
  | start => exact ⟨hw, rfl⟩
  | add bm o bm1 r _ h ih =>
    exact ⟨WF_Add bm bm1 o r ih.1 h, by rw [(Add_keeps bm bm1 o r h).1, ih.2]⟩
  | del fuel bm o bm1 r _ h ih =>
    exact ⟨WF_Del fuel bm bm1 o r ih.1 h, by rw [(Del_keeps fuel bm bm1 o r h).1, ih.2]⟩

/-- C17.  For every bitmap `bm0` returned by `NewBitmap(size)` with `size ≥ 0`
and every state `bm` reached from it by `Add` and `Del` calls (`Has`, `Prev`
and `Next` leave the state as it is): the storage length is
`(BitSize() + 1) / 8`, `BitSize()` is the one of `bm0`, and for every offset
`o ≤ BitSize()` the byte index `o / 8` is inside the storage, so that `Has`,
`Add`, `Del`, and also `Prev` and `Next`, never panic. -/
theorem C17_storage_length_is_fixed (size : Int) (bm0 bm : Bitmap) (h0 : 0 ≤ size)
    (h1 : size < 2 ^ 63) (hnew : NewBitmap size = .ret (.bitmap bm0)) (hr : Reach bm0 bm) :
    bm.data.length = (BitSize bm + 1) / 8 ∧ BitSize bm = BitSize bm0 ∧
    (∀ o, o ≤ BitSize bm → o / 8 < bm.data.length) ∧
    (∀ o, Has bm o ≠ .panic ∧ Add bm o ≠ .panic) ∧
    (∀ fuel o, Del fuel bm o ≠ .panic ∧ Prev fuel bm o ≠ .panic ∧ Next fuel bm o ≠ .panic) := by
  obtain ⟨hw0, -⟩ := NewBitmap_WF size bm0 h0 h1 hnew
  obtain ⟨hw, hbs⟩ := Reach_WF bm0 bm hw0 hr
  refine ⟨?_, hbs, ?_, fun o => ⟨WF_Has_ne_panic bm o hw, WF_Add_ne_panic bm o hw⟩,
    fun fuel o => ⟨WF_Del_ne_panic fuel bm o hw, WF_Prev_ne_panic bm hw fuel o,
      WF_Next_ne_panic bm hw fuel o⟩⟩
  · unfold WF at hw
    unfold BitSize
    omega
  · intro o ho
    unfold WF at hw
    unfold BitSize at ho
    omega

/-- Witness of C17: `NewBitmap(16)`, then `Add 3`, `Add 10`, `Add 15`, `Del 15`. -/
theorem C17_storage_length_is_fixed_witness :
    NewBitmap 16 = .ret (.bitmap ⟨[0, 0], 15, 0⟩) ∧
    Reach ⟨[0, 0], 15, 0⟩ ⟨[8, 4], 15, 10⟩ ∧
    (⟨[8, 4], 15, 10⟩ : Bitmap).data.length = (BitSize ⟨[8, 4], 15, 10⟩ + 1) / 8 ∧
    BitSize ⟨[8, 4], 15, 10⟩ = BitSize ⟨[0, 0], 15, 0⟩ :=
  have hr : Reach ⟨[0, 0], 15, 0⟩ ⟨[8, 4], 15, 10⟩ :=
    Reach.del 6 ⟨[8, 132], 15, 15⟩ 15 _ true
      (Reach.add ⟨[8, 4], 15, 10⟩ 15 _ true
        (Reach.add ⟨[8, 0], 15, 3⟩ 10 _ true
          (Reach.add ⟨[0, 0], 15, 0⟩ 3 _ true Reach.start (by decide))
          (by decide))
        (by decide))
      (by decide)
  have h := C17_storage_length_is_fixed 16 ⟨[0, 0], 15, 0⟩ ⟨[8, 4], 15, 10⟩
    (by norm_num) (by norm_num) (by decide) hr
  ⟨by decide, hr, h.1, h.2.1⟩

/-! ### `String` -/

theorem bitTotal_le (bm : Bitmap) : bitTotal bm ≤ 101 := by
  unfold bitTotal
  split
  · omega
  · rw [Nat.mod_eq_of_lt (by omega)]
    omega

/-- The loop of `String` on a well-formed bitmap: `n` rounds from `offset` on
append the offsets that read as set, in increasing order. -/
theorem WF_StringLoop (bm : Bitmap) (hw : WF bm) (total : Nat) (ht : total < 2 ^ 64) :
    ∀ n offset acc fuel, total - offset = n → n < fuel →
      StringLoop bm total fuel offset acc
        = .ret (acc ++ (List.range' offset n).filter (fun o => Has bm o = .ret true)) := by
  intro n
  induction n with
  | zero =>
    intro offset acc fuel hn hf
    obtain ⟨k, rfl⟩ : ∃ k, fuel = k + 1 := ⟨fuel - 1, by omega⟩
    unfold StringLoop
    rw [if_neg (by omega)]
    simp
  | succ n ih =>
    intro offset acc fuel hn hf
    obtain ⟨k, rfl⟩ : ∃ k, fuel = k + 1 := ⟨fuel - 1, by omega⟩
    unfold StringLoop
    rw [if_pos (by omega), Nat.mod_eq_of_lt (by omega)]
    obtain ⟨v, hv⟩ := WF_Has bm offset hw
    cases v with
    | true =>
      rw [hv]
      simp only
      rw [ih (offset + 1) _ k (by omega) (by omega)]
      simp [List.range'_succ, List.filter_cons, hv]
    | false =>
      rw [hv]
      simp only
      rw [ih (offset + 1) _ k (by omega) (by omega)]
      simp [List.range'_succ, List.filter_cons, hv]

/-- What `String` lists on a well-formed bitmap: the set offsets below
`bitTotal`, in increasing order, where `bitTotal` is `maxpos + 1` up to
`maxpos = 100` and 100 above. -/
theorem WF_numSlice (bm : Bitmap) (hw : WF bm) :
    numSlice bm = .ret ((List.range (bitTotal bm)).filter (fun o => Has bm o = .ret true)) := by
  unfold numSlice
  have h := bitTotal_le bm
  rw [WF_StringLoop bm hw (bitTotal bm) (by omega) (bitTotal bm) 0 [] (bitTotal bm + 1)
    (by omega) (by omega), List.range_eq_range']
  simp

set_option maxRecDepth 100000 in
/-- C15 (code defect).  The claim: `String()` lists exactly the set offsets
below `min(Maxpos() + 1, 100)`, never an offset `≥ 100` and never more than
100 offsets.  The code: `bitTotal` is cut to 100 only when `maxpos > 100`, so
at `maxpos = 100` the loop runs over the 101 offsets `0 .. 100`.  On the
bitmap of `NewBitmap(104)` after `Add 100`, `String()` is `[100]`; with the
bits `0 .. 100` all added it lists 101 offsets. -/
theorem C15_String_lists_offset_100 :
    NewBitmap 104 = .ret (.bitmap ⟨List.replicate 13 0, 103, 0⟩) ∧
    Add ⟨List.replicate 13 0, 103, 0⟩ 100
      = .ret (⟨[0, 0, 0, 0, 0, 0, 0, 0, 0, 0, 0, 0, 16], 103, 100⟩, true) ∧
    min (Maxpos ⟨[0, 0, 0, 0, 0, 0, 0, 0, 0, 0, 0, 0, 16], 103, 100⟩ + 1) 100 = 100 ∧
    numSlice ⟨[0, 0, 0, 0, 0, 0, 0, 0, 0, 0, 0, 0, 16], 103, 100⟩ = .ret [100] ∧
    Bitmap.String ⟨[0, 0, 0, 0, 0, 0, 0, 0, 0, 0, 0, 0, 16], 103, 100⟩ = .ret "[100]" ∧
    AddAll ⟨List.replicate 13 0, 103, 0⟩ (List.range 101)
      = .ret ⟨[255, 255, 255, 255, 255, 255, 255, 255, 255, 255, 255, 255, 31], 103, 100⟩ ∧
    numSlice ⟨[255, 255, 255, 255, 255, 255, 255, 255, 255, 255, 255, 255, 31], 103, 100⟩
      = .ret (List.range 101) ∧
    (List.range 101).length = 101 := by
  refine ⟨by decide, by decide, by decide, by decide, by decide, by decide, by decide, by decide⟩

/-! ### Requests to the mutex -/

/-- The three shapes of the mutex requests of `Has`. -/
theorem HasLocks_cases (bm : Bitmap) (o : Nat) :
    (HasLocks bm o = [] ∧ ∃ v, Has bm o = .ret v) ∨
    (HasLocks bm o = [.RLock, .RUnlock] ∧ ∃ v, Has bm o = .ret v) ∨
    (HasLocks bm o = [.RLock] ∧ Has bm o = .panic) := by
  rcases Nat.lt_or_ge bm.bitsize o with hlt | hle
  · left
    exact ⟨by simp [HasLocks, hlt], false, Has_of_lt bm o hlt⟩
  · have hn : ¬ bm.bitsize < o := by omega
    cases hb : bm.data[o / 8]? with
    | none =>
      right; right
      exact ⟨by simp only [HasLocks, hn, if_false, hb], Has_of_none bm o hle hb⟩
    | some b =>
      right; left
      exact ⟨by simp only [HasLocks, hn, if_false, hb], _, Has_of_get bm o b hle hb⟩

theorem HasLocks_ok (bm : Bitmap) (o : Nat) : neverLocksWhileHeld 0 (HasLocks bm o) = true := by
  rcases HasLocks_cases bm o with ⟨h, -⟩ | ⟨h, -⟩ | ⟨h, -⟩ <;> rw [h] <;> rfl

/-- A returning `Has` releases what it acquired: the requests after it are
checked from the same state. -/
theorem HasLocks_append (bm : Bitmap) (o : Nat) (v : Bool) (rest : List LockEv)
    (h : Has bm o = .ret v) :
    neverLocksWhileHeld 0 (HasLocks bm o ++ rest) = neverLocksWhileHeld 0 rest := by
  rcases HasLocks_cases bm o with ⟨h1, -⟩ | ⟨h1, -⟩ | ⟨-, h2⟩
  · rw [h1]; rfl
  · rw [h1]; simp [neverLocksWhileHeld]
  · rw [h2] at h; simp at h

theorem AddLocks_ok (bm : Bitmap) (o : Nat) : neverLocksWhileHeld 0 (AddLocks bm o) = true := by
  unfold AddLocks
  split
  · rfl
  · split <;> rfl

theorem PrevLocks_ok (bm : Bitmap) :
    ∀ fuel o, neverLocksWhileHeld 0 (PrevLocks fuel bm o) = true := by
  intro fuel
  induction fuel with
  | zero => intro o; rfl
  | succ n ih =>
    intro o
    unfold PrevLocks
    rw [if_pos (Nat.zero_le o)]
    cases hh : Has bm o with
    | ret v =>
      cases v with
      | true => simp only [List.append_nil]; exact HasLocks_ok bm o
      | false => simp only; rw [HasLocks_append bm o false _ hh]; exact ih _
    | panic => simp only [List.append_nil]; exact HasLocks_ok bm o
    | timeout => simp only [List.append_nil]; exact HasLocks_ok bm o

theorem NextLocks_ok (bm : Bitmap) :
    ∀ fuel o, neverLocksWhileHeld 0 (NextLocks fuel bm o) = true := by
  intro fuel
  induction fuel with
  | zero => intro o; rfl
  | succ n ih =>
    intro o
    unfold NextLocks
    split
    · cases hh : Has bm o with
      | ret v =>
        cases v with
        | true => simp only [List.append_nil]; exact HasLocks_ok bm o
        | false => simp only; rw [HasLocks_append bm o false _ hh]; exact ih _
      | panic => simp only [List.append_nil]; exact HasLocks_ok bm o
      | timeout => simp only [List.append_nil]; exact HasLocks_ok bm o
    · rfl

theorem DelLocks_ok (fuel : Nat) (bm : Bitmap) (o : Nat) :
    neverLocksWhileHeld 0 (DelLocks fuel bm o) = true := by
  unfold DelLocks
  split
  · rfl
  · split
    · rfl
    · split
      · simp only [List.cons_append, List.nil_append, neverLocksWhileHeld]
        simpa using PrevLocks_ok _ fuel o
      · rfl

/-- Every operation other than `String` requests the mutex only when it does
not hold it. -/
theorem other_operations_never_lock_while_held (fuel : Nat) (bm : Bitmap) (o : Nat) :
    neverLocksWhileHeld 0 (AddLocks bm o) = true ∧
    neverLocksWhileHeld 0 (DelLocks fuel bm o) = true ∧
    neverLocksWhileHeld 0 (HasLocks bm o) = true ∧
    neverLocksWhileHeld 0 (PrevLocks fuel bm o) = true ∧
    neverLocksWhileHeld 0 (NextLocks fuel bm o) = true ∧
    neverLocksWhileHeld 0 (MaxposLocks bm) = true ∧
    neverLocksWhileHeld 0 (BitSizeLocks bm) = true :=
  ⟨AddLocks_ok bm o, DelLocks_ok fuel bm o, HasLocks_ok bm o, PrevLocks_ok bm fuel o,
    NextLocks_ok bm fuel o, rfl, rfl⟩

/-- C18 (code defect).  The claim: no operation requests the mutex at a point
where the same call still holds it.  The code: `String` takes `bm.mu.RLock()`
with a deferred `RUnlock`, and calls `bm.Has(offset)` in its loop; `Has`
requests `RLock` again.  On the fresh bitmap of `NewBitmap(8)` the requests of
`String()` are `RLock, RLock, RUnlock, RUnlock`: the second `RLock` is made
while the first is held. -/
theorem C18_String_relocks_in_Has :
    NewBitmap 8 = .ret (.bitmap ⟨[0], 7, 0⟩) ∧
    StringLocks ⟨[0], 7, 0⟩ = [.RLock, .RLock, .RUnlock, .RUnlock] ∧
    neverLocksWhileHeld 0 (StringLocks ⟨[0], 7, 0⟩) = false := by
  decide

/-- C20 (code defect).  The claim: for every `int` size, negative ones
included, `NewBitmap(size)` does not panic and returns an error or a bitmap
whose storage holds an in-range byte for every offset `≤ BitSize()`.  The
code has no check for a negative size: `NewBitmap(-16)` panics in
`make([]byte, -2)`, and `NewBitmap(-9)` returns without error a bitmap with
`BitSize() = 2 ^ 64 - 1` and no storage, in which the byte index of offset 0 is
outside the storage and `Has 0` panics. -/
theorem C20_NewBitmap_negative_size :
    NewBitmap (-16) = .panic ∧
    NewBitmap (-9) = .ret (.bitmap ⟨[], 2 ^ 64 - 1, 0⟩) ∧
    0 ≤ BitSize ⟨[], 2 ^ 64 - 1, 0⟩ ∧
    ¬ (0 / 8 < (⟨[], 2 ^ 64 - 1, 0⟩ : Bitmap).data.length) ∧
    Has ⟨[], 2 ^ 64 - 1, 0⟩ 0 = .panic ∧
    Del 0 ⟨[], 2 ^ 64 - 1, 0⟩ 0 = .panic := by
  decide

end GoBitmap
